import Mathlib

/-!
Verification of the Merkle directory store (`src/merkle.py`).

Shallow embedding conventions:
* byte strings (file contents, names, paths, hashes) are `Bytes := List Nat`;
  filesystem names and paths are modelled by their UTF-8 bytes, so Python's
  code-point ordering on `str` coincides with the byte-lexicographic order
  used here;
* the SHA-256 digest is an uninterpreted parameter `H : Bytes → Bytes` of every
  definition that hashes; witnesses instantiate it with an executable function;
* the three sqlite tables (`nodes`, `contents`, `contains`) are association
  lists; `INSERT OR IGNORE` is "append the row if the primary key is absent";
  row enumeration (`SELECT ... WHERE parent=?`) is modelled in insertion order;
* a live filesystem is a tree (`FSTree` doubles as the tree read by `store` /
  `diff_path` and as the tree of entries created by `fetch`); POSIX path
  strings are resolved by splitting on `/`, dropping empty components, with a
  trailing slash forcing directory semantics for `open`;
* Python exceptions are `Except` errors (or a `false` result where the source
  catches everything, as `fetch` does); the unbounded recursion of the source
  (which terminates on acyclic stores) is made total with a `fuel` argument.
-/

abbrev Bytes := List Nat

/-! ### Byte-string utilities -/

/-- lowercase hex digit of a value below 16, as a byte (`0`–`9`, `a`–`f`). -/
def hexDigit (n : Nat) : Nat := if n < 10 then 48 + n else 87 + n

/-- lowercase hex encoding of a byte string, two digits per byte:
Python's `bytes.hex()`. -/
def hexEncode : Bytes → Bytes
  | [] => []
  | b :: r => hexDigit (b / 16) :: hexDigit (b % 16) :: hexEncode r

/-- canonical directory encoding: one line `<hex child hash><space><name>\n`
per (name, hash) pair, in the given (already sorted) order; this is the
`str_hash` accumulation of `Merkle.store_rec`. -/
def encodeDir : List (Bytes × Bytes) → Bytes
  | [] => []
  | (n, h) :: r => hexEncode h ++ 32 :: n ++ 10 :: encodeDir r

/-- byte-lexicographic `≤` on byte strings (Python's ordering on `str`/`bytes`). -/
def bytesLe : Bytes → Bytes → Bool
  | [], _ => true
  | _ :: _, [] => false
  | a :: as, b :: bs => if a < b then true else if b < a then false else bytesLe as bs

/-- strict byte-lexicographic `<`. -/
def bytesLt (a b : Bytes) : Bool := bytesLe a b && !bytesLe b a

/-- Python's tuple ordering on `(child_name, child_hash)` pairs, as used by
`sorted(tmp)` in `Merkle.store_rec`. -/
def ple (a b : Bytes × Bytes) : Bool :=
  if a.1 = b.1 then bytesLe a.2 b.2 else bytesLt a.1 b.1

/-- insert into a `ple`-sorted list (`ple` is antisymmetric, so any sort of
distinct pairs agrees with Python's stable `sorted`). -/
def insertPair (x : Bytes × Bytes) : List (Bytes × Bytes) → List (Bytes × Bytes)
  | [] => [x]
  | y :: ys => if ple y x then y :: insertPair x ys else x :: y :: ys

/-- sort a list of (name, hash) pairs by `ple`: Python's `sorted(tmp)`. -/
def sortPairs : List (Bytes × Bytes) → List (Bytes × Bytes)
  | [] => []
  | x :: xs => insertPair x (sortPairs xs)

/-- split a byte string at every occurrence of `sep`, keeping empty pieces:
Python's `str.split(sep)` (so the empty string yields `[[]]`). -/
def splitOnByte (sep : Nat) : Bytes → List Bytes
  | [] => [[]]
  | c :: rest =>
    let r := splitOnByte sep rest
    if c = sep then [] :: r
    else
      match r with
      | [] => [[c]]
      | p :: ps => (c :: p) :: ps

/-- the nonempty `/`-separated components of a POSIX path (the kernel
collapses duplicate slashes and ignores leading/trailing ones when resolving
the entry itself). -/
def comps (p : Bytes) : List Bytes := (splitOnByte 47 p).filter (fun c => !c.isEmpty)

/-- `Merkle.build_path`: join with a slash unless the left part is empty. -/
def build_path (path toAdd : Bytes) : Bytes :=
  if path = [] then toAdd else path ++ 47 :: toAdd

/-! ### Filesystem trees

`FSTree` models a directory subtree of the filesystem: regular files with
content bytes, and directories as (name, subtree) lists in enumeration order
(the order `Path.iterdir` happens to produce). The same type represents both
the trees handed to `store`/`diff_path` and the filesystem state written by
`fetch`. -/

inductive FSTree where
  | file (data : Bytes)
  | dir (children : List (Bytes × FSTree))
  deriving Repr

mutual
def treeBeq : FSTree → FSTree → Bool
  | .file d, .file d' => d == d'
  | .dir cs, .dir cs' => childrenBeq cs cs'
  | _, _ => false

def childrenBeq : List (Bytes × FSTree) → List (Bytes × FSTree) → Bool
  | [], [] => true
  | (n, t) :: r, (n', t') :: r' => n == n' && treeBeq t t' && childrenBeq r r'
  | _, _ => false
end

mutual
theorem treeBeq_iff : ∀ a b, treeBeq a b = true ↔ a = b
  | .file d, .file d' => by simp [treeBeq]
  | .file _, .dir _ => by simp [treeBeq]
  | .dir _, .file _ => by simp [treeBeq]
  | .dir cs, .dir cs' => by
      simp only [treeBeq, childrenBeq_iff cs cs', FSTree.dir.injEq]

theorem childrenBeq_iff : ∀ l l', childrenBeq l l' = true ↔ l = l'
  | [], [] => by simp [childrenBeq]
  | [], _ :: _ => by simp [childrenBeq]
  | _ :: _, [] => by simp [childrenBeq]
  | (n, t) :: r, (n', t') :: r' => by
      simp [childrenBeq, treeBeq_iff t t', childrenBeq_iff r r', Prod.ext_iff, and_assoc]
end

instance : DecidableEq FSTree := fun a b =>
  decidable_of_iff (treeBeq a b = true) (treeBeq_iff a b)

def FSTree.isFileB : FSTree → Bool
  | .file _ => true
  | .dir _ => false

mutual
/-- the hash `store_rec` computes for a tree: `H` of the content for a file,
`H` of the canonical encoding of the name-sorted (name, child hash) pairs for
a directory. This is a pure function of the tree alone. -/
def hashOf (H : Bytes → Bytes) : FSTree → Bytes
  | .file d => H d
  | .dir cs => H (encodeDir (sortPairs (hashChildren H cs)))

def hashChildren (H : Bytes → Bytes) : List (Bytes × FSTree) → List (Bytes × Bytes)
  | [] => []
  | (n, t) :: rest => (n, hashOf H t) :: hashChildren H rest
end

mutual
/-- well-formedness a real directory subtree always has: sibling names are
distinct, nonempty and slash-free. -/
def goodTreeB : FSTree → Bool
  | .file _ => true
  | .dir cs => goodChildrenB cs

def goodChildrenB : List (Bytes × FSTree) → Bool
  | [] => true
  | (n, c) :: rest =>
      !n.isEmpty && !n.contains 47 && !(rest.any (fun p => p.1 == n)) &&
        goodTreeB c && goodChildrenB rest
end

mutual
def depthOf : FSTree → Nat
  | .file _ => 1
  | .dir cs => depthChildren cs + 1

def depthChildren : List (Bytes × FSTree) → Nat
  | [] => 0
  | (_, c) :: rest => max (depthOf c) (depthChildren rest)
end

mutual
/-- every subtree occurring in a tree (including the tree itself). -/
def subtreesList : FSTree → List FSTree
  | .file d => [.file d]
  | .dir cs => .dir cs :: subtreesChildren cs

def subtreesChildren : List (Bytes × FSTree) → List FSTree
  | [] => []
  | (_, c) :: rest => subtreesList c ++ subtreesChildren rest
end

mutual
/-- reordering closure: two trees are equivalent when they differ only in the
enumeration order of directory children, recursively. -/
inductive TreeEquiv : FSTree → FSTree → Prop where
  | file (d : Bytes) : TreeEquiv (.file d) (.file d)
  | dir {cs zs cs' : List (Bytes × FSTree)} :
      cs.Perm zs → ChildrenEquiv zs cs' → TreeEquiv (.dir cs) (.dir cs')

inductive ChildrenEquiv : List (Bytes × FSTree) → List (Bytes × FSTree) → Prop where
  | nil : ChildrenEquiv [] []
  | cons {n t t' rest rest'} : TreeEquiv t t' → ChildrenEquiv rest rest' →
      ChildrenEquiv ((n, t) :: rest) ((n, t') :: rest')
end

/-! ### The database (three sqlite tables as association lists) -/

structure DB where
  nodes : List (Bytes × Bool)
  contents : List (Bytes × Bytes)
  contains : List (Bytes × Bytes × Bytes)
  deriving Repr, DecidableEq

def emptyDB : DB := ⟨[], [], []⟩

def hasNodeKey (db : DB) (k : Bytes) : Bool := db.nodes.any (fun r => r.1 == k)

def lookupNode (db : DB) (k : Bytes) : Option Bool :=
  (db.nodes.find? (fun r => r.1 == k)).map (·.2)

def insNode (db : DB) (k : Bytes) (f : Bool) : DB :=
  if hasNodeKey db k then db else { db with nodes := db.nodes ++ [(k, f)] }

def hasContentKey (db : DB) (k : Bytes) : Bool := db.contents.any (fun r => r.1 == k)

def lookupContent (db : DB) (k : Bytes) : Option Bytes :=
  (db.contents.find? (fun r => r.1 == k)).map (·.2)

def insContent (db : DB) (k d : Bytes) : DB :=
  if hasContentKey db k then db else { db with contents := db.contents ++ [(k, d)] }

def hasEdgeKey (db : DB) (p n : Bytes) : Bool :=
  db.contains.any (fun r => r.1 == p && r.2.1 == n)

def insEdge (db : DB) (p n c : Bytes) : DB :=
  if hasEdgeKey db p n then db else { db with contains := db.contains ++ [(p, n, c)] }

/-- `SELECT child_hash FROM contains WHERE parent=? AND child_name=?`. -/
def childByName (db : DB) (p n : Bytes) : Option Bytes :=
  (db.contains.find? (fun r => r.1 == p && r.2.1 == n)).map (·.2.2)

/-- `SELECT child_name, child_hash FROM contains WHERE parent=?` (row order). -/
def childrenOf (db : DB) (p : Bytes) : List (Bytes × Bytes) :=
  db.contains.filterMap (fun r => if r.1 == p then some r.2 else none)

def insEdges (db : DB) (h : Bytes) (pairs : List (Bytes × Bytes)) : DB :=
  pairs.foldl (fun d p => insEdge d h p.1 p.2) db

mutual
/-- `Merkle.store_rec`: post-order store of a filesystem tree, returning the
hash and the updated database. For a directory the children are stored in
enumeration order (building `tmp`), the hash is taken over the name-sorted
canonical encoding, and the edges are inserted in the unsorted `tmp` order;
the `nodes` row is inserted last. -/
def store_rec (H : Bytes → Bytes) : DB → FSTree → Bytes × DB
  | db, .file data =>
    let h := H data
    let db1 := insContent db h data
    (h, insNode db1 h true)
  | db, .dir cs =>
    let (tmp, db1) := storeChildren H db cs
    let h := H (encodeDir (sortPairs tmp))
    let db2 := insEdges db1 h tmp
    (h, insNode db2 h false)

def storeChildren (H : Bytes → Bytes) : DB → List (Bytes × FSTree) → List (Bytes × Bytes) × DB
  | db, [] => ([], db)
  | db, (n, t) :: rest =>
    let (hc, db1) := store_rec H db t
    let (ps, db2) := storeChildren H db1 rest
    ((n, hc) :: ps, db2)
end

/-- `Merkle.store` on a path that exists and is a file or directory is exactly
`store_rec` on the tree found there. -/
def store (H : Bytes → Bytes) (db : DB) (t : FSTree) : Bytes × DB := store_rec H db t

/-! ### The Diff engine -/

/-- a `Diff` value: optional old content and optional new content
(`is_new` = only new, `is_removed` = only old, `is_changed` = both). -/
structure Diff where
  old_data : Option Bytes
  new_data : Option Bytes
  deriving Repr, DecidableEq

def Diff.is_new (d : Diff) : Bool := d.old_data.isNone && d.new_data.isSome

def Diff.is_changed (d : Diff) : Bool := d.old_data.isSome && d.new_data.isSome

def Diff.is_removed (d : Diff) : Bool := d.old_data.isSome && d.new_data.isNone

/-- the result dictionary: keys are paths, in Python `dict` insertion order. -/
abbrev DMap := List (Bytes × Diff)

/-- `res[k] = v`: replace in place if the key exists, else append. -/
def dset (m : DMap) (k : Bytes) (v : Diff) : DMap :=
  if m.any (fun p => p.1 == k) then m.map (fun p => if p.1 == k then (k, v) else p)
  else m ++ [(k, v)]

/-- `res.update(m')`. -/
def dupdate (m m' : DMap) : DMap := m'.foldl (fun acc p => dset acc p.1 p.2) m

/-- `del res[k]`. -/
def ddel (m : DMap) (k : Bytes) : DMap := m.filter (fun p => p.1 != k)

/-- errors of the diff operations: `invalidHash` is the explicit
`RuntimeError('Invalid hash(es) ...')` raises, `dbError` is the `TypeError`
from unpacking a missing `fetchone()` row, `outOfFuel` stands for the
unbounded recursion of the source. -/
inductive DiffErr where
  | outOfFuel
  | invalidHash
  | dbError
  deriving Repr, DecidableEq

instance {ε α : Type} [DecidableEq ε] [DecidableEq α] : DecidableEq (Except ε α) := fun a b =>
  match a, b with
  | .ok x, .ok y => decidable_of_iff (x = y) (by simp)
  | .error x, .error y => decidable_of_iff (x = y) (by simp)
  | .ok _, .error _ => isFalse (by simp)
  | .error _, .ok _ => isFalse (by simp)

/-- `Merkle.file_comparison`: read each side's content from `contents` when
that side is a file; a missing row is the fatal unpacking error. -/
def file_comparison (db : DB) (old new : Bytes × Bool) : Except DiffErr Diff := do
  let od ← if old.2 then
      match lookupContent db old.1 with
      | none => throw DiffErr.dbError
      | some d => pure (some d)
    else pure none
  let nd ← if new.2 then
      match lookupContent db new.1 with
      | none => throw DiffErr.dbError
      | some d => pure (some d)
    else pure none
  pure ⟨od, nd⟩

/-- the child loop of `Merkle.build_folder`, folding over the `contains` rows
of the parent; `recur h p` is `build_folder` on child hash `h` at path `p`. -/
def buildFolderChildren (recur : Bytes → Bytes → Except DiffErr DMap) (path : Bytes) :
    List (Bytes × Bytes) → DMap → Except DiffErr DMap
  | [], acc => .ok acc
  | (n, h) :: rest, acc => do
    let m ← recur h (path ++ 47 :: n)
    buildFolderChildren recur path rest (dupdate acc m)

/-- `Merkle.build_folder`: emit one fully-new (or fully-removed) entry per
file transitively under `node`, keyed `path + '/' + name` below `path`;
directories themselves contribute no entry. -/
def build_folder (db : DB) : Nat → Bytes → Bool → Bytes → Except DiffErr DMap
  | 0, _, _, _ => .error .outOfFuel
  | fuel + 1, node, is_new, path =>
    match lookupNode db node with
    | none => .error .dbError
    | some true =>
      match lookupContent db node with
      | none => .error .dbError
      | some data =>
        .ok [(path, if is_new then ⟨none, some data⟩ else ⟨some data, none⟩)]
    | some false =>
      buildFolderChildren (fun h p => build_folder db fuel h is_new p) path
        (childrenOf db node) []

/-- inner loop of `Merkle.diff_rec` over the new children for one old child
`oc`; on a name match the recursive diff is folded in and the name is
appended to `used`. -/
def diffMatchedInner (recur : Bytes → Bytes → Bytes → Except DiffErr DMap)
    (path : Bytes) (oc : Bytes × Bytes) :
    List (Bytes × Bytes) → List Bytes × DMap → Except DiffErr (List Bytes × DMap)
  | [], acc => .ok acc
  | nc :: ncs, acc =>
    if oc.1 = nc.1 then do
      let m ← recur oc.2 nc.2 (build_path path oc.1)
      diffMatchedInner recur path oc ncs (acc.1 ++ [oc.1], dupdate acc.2 m)
    else diffMatchedInner recur path oc ncs acc

/-- outer matched-children loop of `Merkle.diff_rec`. -/
def diffMatched (recur : Bytes → Bytes → Bytes → Except DiffErr DMap)
    (path : Bytes) (newCh : List (Bytes × Bytes)) :
    List (Bytes × Bytes) → List Bytes × DMap → Except DiffErr (List Bytes × DMap)
  | [], acc => .ok acc
  | oc :: ocs, acc => do
    let acc1 ← diffMatchedInner recur path oc newCh acc
    diffMatched recur path newCh ocs acc1

/-- one-sided loops of `Merkle.diff_rec`: children whose name is not in
`used` are expanded with `build_folder`. -/
def diffOnly (db : DB) (fuel : Nat) (is_new : Bool) (path : Bytes) (used : List Bytes) :
    List (Bytes × Bytes) → DMap → Except DiffErr DMap
  | [], acc => .ok acc
  | (n, h) :: rest, acc =>
    if used.contains n then diffOnly db fuel is_new path used rest acc
    else do
      let m ← build_folder db fuel h is_new (build_path path n)
      diffOnly db fuel is_new path used rest (dupdate acc m)

/-- `Merkle.diff_rec`. Equal hashes short-circuit to the empty dict before any
database access; then both kinds are looked up (error if either hash has no
`nodes` row), a `Diff` entry is emitted at `path` if either side is a file,
name-matched children are recursed into, and one-sided children are expanded
with `build_folder`. -/
def diff_rec (db : DB) : Nat → Bytes → Bytes → Bytes → Except DiffErr DMap
  | 0, _, _, _ => .error .outOfFuel
  | fuel + 1, old, new, path =>
    if old = new then .ok [] else
    match lookupNode db old, lookupNode db new with
    | some of, some nf => do
      let res0 : DMap ←
        if of || nf then do
          let d ← file_comparison db (old, of) (new, nf)
          pure [(path, d)]
        else pure []
      let oldCh := childrenOf db old
      let newCh := childrenOf db new
      let (used, res1) ← diffMatched (fun a b p => diff_rec db fuel a b p) path newCh oldCh
        ([], res0)
      let res2 ← diffOnly db fuel false path used oldCh res1
      diffOnly db fuel true path used newCh res2
    | _, _ => .error .invalidHash

/-- `Merkle.diff`. -/
def diff (db : DB) (fuel : Nat) (hash_old hash_new : Bytes) : Except DiffErr DMap :=
  diff_rec db fuel hash_old hash_new []

mutual
/-- `Merkle.build_from_path`: expand a live filesystem subtree as fully-new
entries. `fname` is `f.name`; note the source extends the path with the
parent's own name (`f.name`), not the child's, when recursing into a
directory. -/
def build_from_path (fname : Bytes) (f : FSTree) (path : Bytes) : DMap :=
  match f with
  | .file d => [(path, ⟨none, some d⟩)]
  | .dir cs => bfpChildren (build_path path fname) cs []

def bfpChildren (p : Bytes) : List (Bytes × FSTree) → DMap → DMap
  | [], acc => acc
  | (n, c) :: rest, acc => bfpChildren p rest (dupdate acc (build_from_path n c p))
end

/-- child loop of `Merkle.diff_path_rec` over the live (new-side) children:
a name with no `contains` row on the old side is expanded as fully new, a
matched name recurses. Old-side children missing from the live side are never
visited. -/
def dprChildren (recur : Bytes → FSTree → Bytes → Except DiffErr DMap)
    (db : DB) (hash_old path : Bytes) :
    List (Bytes × FSTree) → DMap → Except DiffErr DMap
  | [], acc => .ok acc
  | (n, c) :: rest, acc => do
    let acc' ←
      match childByName db hash_old n with
      | none => pure (dupdate acc (build_from_path n c (build_path path n)))
      | some ch => do
        let m ← recur ch c (build_path path n)
        pure (dupdate acc m)
    dprChildren recur db hash_old path rest acc'

/-- `Merkle.diff_path_rec`: diff a stored hash against a live tree. -/
def diff_path_rec (db : DB) : Nat → Bytes → FSTree → Bytes → Except DiffErr DMap
  | 0, _, _, _ => .error .outOfFuel
  | fuel + 1, hash_old, pn, path =>
    match lookupNode db hash_old with
    | none => .error .invalidHash
    | some old_is_file => do
      let od ← if old_is_file then
          match lookupContent db hash_old with
          | none => throw DiffErr.dbError
          | some d => pure (some d)
        else pure none
      let nd : Option Bytes :=
        match pn with
        | .file d => some d
        | .dir _ => none
      let res0 : DMap := [(path, ⟨od, nd⟩)]
      let res1 ←
        match pn, old_is_file with
        | .file _, false => do
          let m ← build_folder db fuel hash_old false path
          pure (dupdate res0 m)
        | _, _ => pure res0
      let res2 := if od = nd then ddel res1 path else res1
      match pn with
      | .dir cs => dprChildren (fun h t p => diff_path_rec db fuel h t p) db hash_old path cs res2
      | .file _ => pure res2

/-- `Merkle.diff_path` on an existing live path. -/
def diff_path (db : DB) (fuel : Nat) (hash_old : Bytes) (t : FSTree) : Except DiffErr DMap :=
  diff_path_rec db fuel hash_old t []

/-! ### The tree navigator (`Merkle.find`) -/

/-- the lookup loop of `find`: follow one `contains` edge per component,
returning `none` as soon as a component is missing. -/
def findPath (db : DB) : Bytes → List Bytes → Option Bytes
  | root, [] => some root
  | root, n :: rest =>
    match childByName db root n with
    | none => none
    | some h => findPath db h rest

/-- `Merkle.find`. The path argument is `Option Bytes`, `none` modelling the
Python `None` sentinel (a `ValueError`); the string is split on `/`, one
leading and one trailing empty component are popped, and the remaining
components are resolved by `findPath`. -/
def find (db : DB) (root_hash : Bytes) (node_path : Option Bytes) :
    Except Unit (Option Bytes) :=
  match node_path with
  | none => .error ()
  | some s =>
    let p0 := splitOnByte 47 s
    let p1 := match p0 with
      | [] :: ps => ps
      | l => l
    let p2 := if p1 ≠ [] ∧ p1.getLast? = some [] then p1.dropLast else p1
    .ok (findPath db root_hash p2)

/-! ### The materializer (`Merkle.fetch`)

The filesystem written to is a root directory's children list (`FS`); paths
are POSIX strings resolved through `comps`. `open(p, 'wb')` fails when `p`
ends in a slash, when the parent chain does not resolve to directories, or
when `p` names an existing directory (it truncates an existing file);
`Path(p).mkdir()` fails when `p` exists or the parent chain is missing. -/

abbrev FS := List (Bytes × FSTree)

def lookupFS (cs : FS) (n : Bytes) : Option FSTree :=
  (cs.find? (fun p => p.1 == n)).map (·.2)

def setChild : FS → Bytes → FSTree → FS
  | [], n, v => [(n, v)]
  | (m, u) :: rest, n, v =>
    if m = n then (n, v) :: rest else (m, u) :: setChild rest n v

/-- insert a fresh entry at a component path: every leading component must
resolve to an existing directory, and the final component must be absent. -/
def insTree : FS → List Bytes → FSTree → Option FS
  | _, [], _ => none
  | cs, [n], t => if (lookupFS cs n).isNone then some (cs ++ [(n, t)]) else none
  | cs, n :: m :: ns, t =>
    match lookupFS cs n with
    | some (.dir sub) => (insTree sub (m :: ns) t).map (fun s => setChild cs n (.dir s))
    | _ => none

/-- the component-path part of `open(p, 'wb')` + write: parents must be
directories, an existing directory target fails, an existing file target is
overwritten. -/
def setFileGo : FS → List Bytes → Bytes → Option FS
  | _, [], _ => none
  | cs, [n], d =>
    match lookupFS cs n with
    | some (.dir _) => none
    | _ => some (setChild cs n (.file d))
  | cs, n :: m :: ns, d =>
    match lookupFS cs n with
    | some (.dir sub) => (setFileGo sub (m :: ns) d).map (fun s => setChild cs n (.dir s))
    | _ => none

/-- `open(p, 'wb')` + write of `data`: a trailing slash forces directory
semantics and fails. -/
def writeFile (fs : FS) (p : Bytes) (data : Bytes) : Option FS :=
  if p.getLast? = some 47 then none else setFileGo fs (comps p) data

/-- `Path(p).mkdir()`. -/
def mkdirP (fs : FS) (p : Bytes) : Option FS := insTree fs (comps p) (.dir [])

/-- resolve a component path to the entry it names (the root itself for `[]`). -/
def resolveNode : FSTree → List Bytes → Option FSTree
  | t, [] => some t
  | .dir cs, n :: ns =>
    match lookupFS cs n with
    | some c => resolveNode c ns
    | none => none
  | .file _, _ :: _ => none

/-- does any filesystem entry exist at path `p`? -/
def existsAt (fs : FS) (p : Bytes) : Bool := (resolveNode (.dir fs) (comps p)).isSome

/-- child loop of `Merkle.fetch_creation`: each child is materialized under
`dirpath`; the first failure aborts, keeping the partial state (no rollback). -/
def fetchChildren (recur : FS → Bytes → Bytes → Bool × FS) (dirpath : Bytes) :
    FS → List (Bytes × Bytes) → Bool × FS
  | fs, [] => (true, fs)
  | fs, (n, ch) :: rest =>
    match recur fs ch n with
    | (true, fs') => fetchChildren recur dirpath fs' rest
    | (false, fs') => (false, fs')

/-- `Merkle.fetch_creation`: write the node of `hash` at `path ++ name`
(`path` always ends in a slash). Any failure — missing row, failed `open`,
failed `mkdir` — is an exception, modelled as a `false` flag with the
filesystem as mutated so far. -/
def fetch_creation (db : DB) : Nat → FS → Bytes → Bytes → Bytes → Bool × FS
  | 0, fs, _, _, _ => (false, fs)
  | fuel + 1, fs, path, hash, name =>
    match lookupNode db hash with
    | none => (false, fs)
    | some true =>
      match lookupContent db hash with
      | none => (false, fs)
      | some data =>
        match writeFile fs (path ++ name) data with
        | none => (false, fs)
        | some fs' => (true, fs')
    | some false =>
      match mkdirP fs (path ++ name) with
      | none => (false, fs)
      | some fs1 =>
        fetchChildren (fun g h n => fetch_creation db fuel g (path ++ name ++ [47]) h n)
          (path ++ name ++ [47]) fs1 (childrenOf db hash)

/-- `Merkle.fetch`: appends a slash to the target (an empty target raises
`IndexError`, caught) and runs `fetch_creation` with the empty name; every
exception becomes `false`, with the filesystem left as mutated so far. -/
def fetch (db : DB) (fuel : Nat) (fs : FS) (hash : Bytes) (path : Bytes) : Bool × FS :=
  match path.getLast? with
  | none => (false, fs)
  | some c =>
    let p' := if c = 47 then path else path ++ [47]
    fetch_creation db fuel fs p' hash []

/-- children loop of `materialize`. -/
def matChildren (recur : Bytes → Option FSTree) : List (Bytes × Bytes) → Option (List (Bytes × FSTree))
  | [] => some []
  | (n, ch) :: rest =>
    match recur ch, matChildren recur rest with
    | some t, some ts => some ((n, t) :: ts)
    | _, _ => none

/-- the tree a hash denotes in the database: the content of its `contents`
row for a file node, and the recursively materialized `contains` children (in
row order) for a directory node. `fetch` writes exactly this tree on success. -/
def materialize (db : DB) : Nat → Bytes → Option FSTree
  | 0, _ => none
  | fuel + 1, h =>
    match lookupNode db h with
    | none => none
    | some true => (lookupContent db h).map .file
    | some false => (matChildren (materialize db fuel) (childrenOf db h)).map .dir

/-! ### Ordering and sorting lemmas -/

theorem bytesLe_refl : ∀ a, bytesLe a a = true
  | [] => rfl
  | a :: as => by simp [bytesLe, bytesLe_refl as]

theorem bytesLe_cons_iff (a b : Nat) (as bs : Bytes) :
    bytesLe (a :: as) (b :: bs) = true ↔ a < b ∨ (a = b ∧ bytesLe as bs = true) := by
  simp only [bytesLe]
  split_ifs with h1 h2
  · simp [h1]
  · constructor
    · intro h; cases h
    · intro h; omega
  · have hab : a = b := by omega
    simp [hab]

theorem bytesLe_total : ∀ a b, bytesLe a b = true ∨ bytesLe b a = true
  | [], _ => Or.inl rfl
  | _ :: _, [] => Or.inr rfl
  | a :: as, b :: bs => by
    rcases Nat.lt_trichotomy a b with h | h | h
    · exact Or.inl ((bytesLe_cons_iff a b as bs).mpr (Or.inl h))
    · rcases bytesLe_total as bs with h' | h'
      · exact Or.inl ((bytesLe_cons_iff a b as bs).mpr (Or.inr ⟨h, h'⟩))
      · exact Or.inr ((bytesLe_cons_iff b a bs as).mpr (Or.inr ⟨h.symm, h'⟩))
    · exact Or.inr ((bytesLe_cons_iff b a bs as).mpr (Or.inl h))

theorem bytesLe_antisymm : ∀ a b, bytesLe a b = true → bytesLe b a = true → a = b
  | [], [], _, _ => rfl
  | [], _ :: _, _, h2 => by cases h2
  | _ :: _, [], h1, _ => by cases h1
  | a :: as, b :: bs, h1, h2 => by
    rcases (bytesLe_cons_iff a b as bs).mp h1 with h | ⟨rfl, h⟩
    · rcases (bytesLe_cons_iff b a bs as).mp h2 with h' | ⟨h', _⟩ <;> omega
    · rcases (bytesLe_cons_iff a a bs as).mp h2 with h' | ⟨_, h'⟩
      · omega
      · rw [bytesLe_antisymm as bs h h']

theorem bytesLe_trans : ∀ a b c, bytesLe a b = true → bytesLe b c = true → bytesLe a c = true
  | [], _, _, _, _ => rfl
  | _ :: _, [], _, h1, _ => by cases h1
  | _ :: _, _ :: _, [], _, h2 => by cases h2
  | a :: as, b :: bs, c :: cs, h1, h2 => by
    rcases (bytesLe_cons_iff a b as bs).mp h1 with h | ⟨hab, h⟩
    · rcases (bytesLe_cons_iff b c bs cs).mp h2 with h' | ⟨hbc, _⟩
      · exact (bytesLe_cons_iff a c as cs).mpr (Or.inl (by omega))
      · exact (bytesLe_cons_iff a c as cs).mpr (Or.inl (by omega))
    · rcases (bytesLe_cons_iff b c bs cs).mp h2 with h' | ⟨hbc, hh'⟩
      · exact (bytesLe_cons_iff a c as cs).mpr (Or.inl (by omega))
      · exact (bytesLe_cons_iff a c as cs).mpr
          (Or.inr ⟨by omega, bytesLe_trans as bs cs h hh'⟩)

theorem bytesLt_iff (a b : Bytes) :
    bytesLt a b = true ↔ bytesLe a b = true ∧ ¬bytesLe b a = true := by
  simp [bytesLt]

theorem ple_total (a b : Bytes × Bytes) : ple a b = true ∨ ple b a = true := by
  by_cases h : a.1 = b.1
  · unfold ple; rw [if_pos h, if_pos h.symm]; exact bytesLe_total _ _
  · unfold ple; rw [if_neg h, if_neg (Ne.symm h)]
    rcases bytesLe_total a.1 b.1 with h1 | h1
    · by_cases h2 : bytesLe b.1 a.1 = true
      · exact absurd (bytesLe_antisymm _ _ h1 h2) h
      · exact Or.inl ((bytesLt_iff _ _).mpr ⟨h1, h2⟩)
    · by_cases h2 : bytesLe a.1 b.1 = true
      · exact absurd (bytesLe_antisymm _ _ h2 h1) h
      · exact Or.inr ((bytesLt_iff _ _).mpr ⟨h1, h2⟩)

theorem ple_antisymm (a b : Bytes × Bytes) (h1 : ple a b = true) (h2 : ple b a = true) :
    a = b := by
  by_cases h : a.1 = b.1
  · unfold ple at h1 h2; rw [if_pos h] at h1; rw [if_pos h.symm] at h2
    exact Prod.ext h (bytesLe_antisymm _ _ h1 h2)
  · unfold ple at h1 h2; rw [if_neg h] at h1; rw [if_neg (Ne.symm h)] at h2
    rcases (bytesLt_iff _ _).mp h1 with ⟨hle, hnle⟩
    rcases (bytesLt_iff _ _).mp h2 with ⟨hle', _⟩
    exact absurd hle' hnle

theorem ple_trans (a b c : Bytes × Bytes) (h1 : ple a b = true) (h2 : ple b c = true) :
    ple a c = true := by
  unfold ple at *
  by_cases hab : a.1 = b.1 <;> by_cases hbc : b.1 = c.1
  · rw [if_pos hab] at h1; rw [if_pos hbc] at h2
    rw [if_pos (hab.trans hbc)]
    exact bytesLe_trans _ _ _ h1 h2
  · rw [if_pos hab] at h1; rw [if_neg hbc] at h2
    rw [hab, if_neg hbc]; exact h2
  · rw [if_neg hab] at h1; rw [if_pos hbc] at h2
    rw [if_neg (hbc ▸ hab)]; rw [hbc] at h1; exact h1
  · rw [if_neg hab] at h1; rw [if_neg hbc] at h2
    rcases (bytesLt_iff _ _).mp h1 with ⟨le1, nle1⟩
    rcases (bytesLt_iff _ _).mp h2 with ⟨le2, nle2⟩
    have hac : a.1 ≠ c.1 := by
      intro hh
      exact nle1 (by rw [hh]; exact le2)
    rw [if_neg hac]
    refine (bytesLt_iff _ _).mpr ⟨bytesLe_trans _ _ _ le1 le2, fun hca => ?_⟩
    exact nle1 (bytesLe_trans _ _ _ le2 hca)

theorem insertPair_perm (x : Bytes × Bytes) : ∀ l, (insertPair x l).Perm (x :: l)
  | [] => List.Perm.refl _
  | y :: ys => by
    unfold insertPair
    split
    · exact ((insertPair_perm x ys).cons y).trans (List.Perm.swap x y ys)
    · exact List.Perm.refl _

theorem sortPairs_perm : ∀ l, (sortPairs l).Perm l
  | [] => List.Perm.refl _
  | x :: xs => (insertPair_perm x (sortPairs xs)).trans ((sortPairs_perm xs).cons x)

theorem insertPair_sorted (x : Bytes × Bytes) :
    ∀ l, l.Pairwise (fun a b => ple a b = true) →
      (insertPair x l).Pairwise (fun a b => ple a b = true)
  | [], _ => by simp [insertPair]
  | y :: ys, h => by
    rcases List.pairwise_cons.mp h with ⟨hy, hys⟩
    unfold insertPair
    split_ifs with hyx
    · refine List.pairwise_cons.mpr ⟨fun z hz => ?_, insertPair_sorted x ys hys⟩
      rcases List.mem_cons.mp ((insertPair_perm x ys).mem_iff.mp hz) with rfl | hz'
      · exact hyx
      · exact hy z hz'
    · have hxy : ple x y = true := (ple_total x y).resolve_right (by simpa using hyx)
      refine List.pairwise_cons.mpr ⟨fun z hz => ?_, h⟩
      rcases List.mem_cons.mp hz with rfl | hz'
      · exact hxy
      · exact ple_trans x y z hxy (hy z hz')

theorem sortPairs_sorted : ∀ l, (sortPairs l).Pairwise (fun a b => ple a b = true)
  | [] => List.Pairwise.nil
  | x :: xs => insertPair_sorted x (sortPairs xs) (sortPairs_sorted xs)

theorem sortPairs_eq_of_perm {l l' : List (Bytes × Bytes)} (h : l.Perm l') :
    sortPairs l = sortPairs l' := by
  letI : IsAntisymm (Bytes × Bytes) (fun a b => ple a b = true) := ⟨ple_antisymm⟩
  exact List.eq_of_perm_of_sorted
    ((sortPairs_perm l).trans (h.trans (sortPairs_perm l').symm))
    (sortPairs_sorted l) (sortPairs_sorted l')

/-! ### C5: hash derivation and determinism -/

theorem hashChildren_eq_map (Hf : Bytes → Bytes) :
    ∀ l, hashChildren Hf l = l.map (fun p => (p.1, hashOf Hf p.2))
  | [] => rfl
  | (n, t) :: rest => by
    simp [hashChildren, hashChildren_eq_map Hf rest]

mutual
theorem store_rec_fst (Hf : Bytes → Bytes) : ∀ db t, (store_rec Hf db t).1 = hashOf Hf t
  | _, .file _ => by simp [store_rec, hashOf]
  | db, .dir cs => by
    have h := storeChildren_fst Hf db cs
    simp only [store_rec, hashOf]
    cases hsc : storeChildren Hf db cs with
    | mk tmp db1 =>
      rw [hsc] at h
      simp only at h
      simp [h]

theorem storeChildren_fst (Hf : Bytes → Bytes) :
    ∀ db cs, (storeChildren Hf db cs).1 = hashChildren Hf cs
  | _, [] => by simp [storeChildren, hashChildren]
  | db, (n, t) :: rest => by
    have h1 := store_rec_fst Hf db t
    simp only [storeChildren, hashChildren]
    cases hs : store_rec Hf db t with
    | mk hc db1 =>
      rw [hs] at h1
      simp only at h1
      have h2 := storeChildren_fst Hf db1 rest
      cases hs2 : storeChildren Hf db1 rest with
      | mk ps db2 =>
        rw [hs2] at h2
        simp only at h2
        simp [h1, h2]
end

mutual
def tsize : FSTree → Nat
  | .file _ => 1
  | .dir cs => tlsize cs + 1

def tlsize : List (Bytes × FSTree) → Nat
  | [] => 0
  | (_, c) :: rest => tsize c + tlsize rest + 1
end

theorem tsize_le_tlsize_of_mem : ∀ (cs : List (Bytes × FSTree)) (p : Bytes × FSTree),
    p ∈ cs → tsize p.2 ≤ tlsize cs
  | [], _, h => by cases h
  | (m, u) :: rest, p, h => by
    rcases List.mem_cons.mp h with rfl | h'
    · simp only [tlsize]; omega
    · have := tsize_le_tlsize_of_mem rest p h'
      simp only [tlsize]; omega

/-- pointwise part of the reordering argument, parametric in the outer
induction hypothesis. -/
theorem childrenEquiv_hashChildren (Hf : Bytes → Bytes) (N : Nat)
    (rec : ∀ u u', tsize u ≤ N → TreeEquiv u u' → hashOf Hf u = hashOf Hf u') :
    ∀ zs cs', (∀ p ∈ zs, tsize p.2 ≤ N) → ChildrenEquiv zs cs' →
      hashChildren Hf zs = hashChildren Hf cs'
  | [], cs', _, he => by cases he; rfl
  | (n, t) :: rest, cs', hsz, he => by
    cases he with
    | cons ht hrest =>
      have h1 := rec t _ (hsz (n, t) (List.mem_cons_self _ _)) ht
      have h2 := childrenEquiv_hashChildren Hf N rec rest _
        (fun p hp => hsz p (List.mem_cons_of_mem _ hp)) hrest
      simp [hashChildren, h1, h2]

theorem treeEquiv_hashOf (Hf : Bytes → Bytes) :
    ∀ N t t', tsize t ≤ N → TreeEquiv t t' → hashOf Hf t = hashOf Hf t' := by
  intro N
  induction N with
  | zero =>
    intro t t' hle he
    cases he with
    | file d => rfl
    | dir hperm hce => simp [tsize] at hle
  | succ N ih =>
    intro t t' hle he
    cases he with
    | file d => rfl
    | dir hperm hce =>
      rename_i cs zs cs'
      have hsz : ∀ p ∈ zs, tsize p.2 ≤ N := by
        intro p hp
        have hm : p ∈ cs := hperm.symm.subset hp
        have := tsize_le_tlsize_of_mem cs p hm
        simp only [tsize] at hle
        omega
      have h1 : (hashChildren Hf cs).Perm (hashChildren Hf zs) := by
        rw [hashChildren_eq_map, hashChildren_eq_map]
        exact hperm.map _
      have h2 : hashChildren Hf zs = hashChildren Hf cs' :=
        childrenEquiv_hashChildren Hf N ih zs cs' hsz hce
      simp only [hashOf]
      rw [sortPairs_eq_of_perm h1, h2]

/-! ### Basic diff lemmas (structural sharing, error behaviour) -/

theorem diff_rec_self (db : DB) (fuel : Nat) (h p : Bytes) :
    diff_rec db (fuel + 1) h h p = .ok [] := by
  simp [diff_rec]

theorem diff_rec_invalid (db : DB) (fuel : Nat) (a b p : Bytes) (hne : a ≠ b)
    (hmiss : lookupNode db a = none ∨ lookupNode db b = none) :
    diff_rec db (fuel + 1) a b p = .error .invalidHash := by
  rcases hmiss with h | h <;>
    cases ha : lookupNode db a <;> cases hb : lookupNode db b <;>
      simp_all [diff_rec]

/-! ### C1: every diff entry carries content from at least one side -/

/-- every entry of the map records a file on at least one side (an entry
produced for a path that is a directory on both sides would have neither). -/
def GoodM (m : DMap) : Prop :=
  ∀ p ∈ m, p.2.old_data.isSome = true ∨ p.2.new_data.isSome = true

theorem goodM_nil : GoodM [] := by
  intro p hp; cases hp

theorem goodM_dset {m : DMap} {k : Bytes} {v : Diff} (hm : GoodM m)
    (hv : v.old_data.isSome = true ∨ v.new_data.isSome = true) : GoodM (dset m k v) := by
  intro p hp
  unfold dset at hp
  split at hp
  · rcases List.mem_map.mp hp with ⟨q, hq, hpq⟩
    by_cases h : q.1 == k
    · rw [if_pos h] at hpq; subst hpq; exact hv
    · rw [if_neg h] at hpq; subst hpq; exact hm q hq
  · rcases List.mem_append.mp hp with h | h
    · exact hm p h
    · rcases List.mem_singleton.mp h with rfl
      exact hv

theorem goodM_dupdate {m' : DMap} : ∀ {m : DMap}, GoodM m → GoodM m' → GoodM (dupdate m m') := by
  induction m' with
  | nil => intro m hm _; exact hm
  | cons q rest ih =>
    intro m hm hm'
    have hq : q.2.old_data.isSome = true ∨ q.2.new_data.isSome = true :=
      hm' q (List.mem_cons_self _ _)
    have hrest : GoodM rest := fun p hp => hm' p (List.mem_cons_of_mem _ hp)
    exact ih (goodM_dset hm hq) hrest

theorem fc_good {db : DB} {o n : Bytes × Bool} {d : Diff}
    (h : file_comparison db o n = .ok d) (hc : o.2 = true ∨ n.2 = true) :
    d.old_data.isSome = true ∨ d.new_data.isSome = true := by
  rcases o with ⟨oh, ob⟩; rcases n with ⟨nh, nb⟩
  cases ob <;> cases nb <;>
      simp only [file_comparison, Bind.bind, Except.bind, pure, Except.pure] at h
  · simp at hc
  · cases h2 : lookupContent db nh with
    | none => rw [h2] at h; cases h
    | some x => rw [h2] at h; cases h; simp
  · cases h1 : lookupContent db oh with
    | none => rw [h1] at h; cases h
    | some x => rw [h1] at h; cases h; simp
  · cases h1 : lookupContent db oh with
    | none => rw [h1] at h; cases h
    | some x =>
      rw [h1] at h
      cases h2 : lookupContent db nh with
      | none => rw [h2] at h; cases h
      | some y => rw [h2] at h; cases h; simp

theorem buildFolderChildren_good {recur : Bytes → Bytes → Except DiffErr DMap} {path : Bytes}
    (hrec : ∀ h p m, recur h p = .ok m → GoodM m) :
    ∀ l acc r, GoodM acc → buildFolderChildren recur path l acc = .ok r → GoodM r := by
  intro l
  induction l with
  | nil =>
    intro acc r hacc h
    simp only [buildFolderChildren] at h
    cases h; exact hacc
  | cons q rest ih =>
    intro acc r hacc h
    rcases q with ⟨n, hh⟩
    simp only [buildFolderChildren, Bind.bind, Except.bind] at h
    cases hm : recur hh (path ++ 47 :: n) with
    | error e => rw [hm] at h; cases h
    | ok m =>
      rw [hm] at h
      exact ih _ _ (goodM_dupdate hacc (hrec _ _ _ hm)) h

theorem build_folder_good {db : DB} :
    ∀ fuel node is_new path m, build_folder db fuel node is_new path = .ok m → GoodM m := by
  intro fuel
  induction fuel with
  | zero => intro node is_new path m h; cases h
  | succ fuel ih =>
    intro node is_new path m h
    simp only [build_folder] at h
    cases hn : lookupNode db node with
    | none => rw [hn] at h; cases h
    | some b =>
      rw [hn] at h
      cases b with
      | true =>
        cases hc : lookupContent db node with
        | none => simp [hc] at h
        | some data =>
          simp only [hc] at h
          cases h
          intro p hp
          rcases List.mem_singleton.mp hp with rfl
          cases is_new <;> simp
      | false =>
        simp only at h
        exact buildFolderChildren_good (fun h' p' m' hm' => ih h' is_new p' m' hm')
          _ _ _ goodM_nil h

theorem diffMatchedInner_good {recur : Bytes → Bytes → Bytes → Except DiffErr DMap}
    {path : Bytes} {oc : Bytes × Bytes}
    (hrec : ∀ a b p m, recur a b p = .ok m → GoodM m) :
    ∀ l acc r, GoodM acc.2 → diffMatchedInner recur path oc l acc = .ok r → GoodM r.2 := by
  intro l
  induction l with
  | nil =>
    intro acc r hacc h
    simp only [diffMatchedInner] at h
    cases h; exact hacc
  | cons nc ncs ih =>
    intro acc r hacc h
    simp only [diffMatchedInner] at h
    split at h
    · simp only [Bind.bind, Except.bind] at h
      cases hm : recur oc.2 nc.2 (build_path path oc.1) with
      | error e => rw [hm] at h; cases h
      | ok m =>
        rw [hm] at h
        exact ih _ _ (goodM_dupdate hacc (hrec _ _ _ _ hm)) h
    · exact ih _ _ hacc h

theorem diffMatched_good {recur : Bytes → Bytes → Bytes → Except DiffErr DMap}
    {path : Bytes} {newCh : List (Bytes × Bytes)}
    (hrec : ∀ a b p m, recur a b p = .ok m → GoodM m) :
    ∀ l acc r, GoodM acc.2 → diffMatched recur path newCh l acc = .ok r → GoodM r.2 := by
  intro l
  induction l with
  | nil =>
    intro acc r hacc h
    simp only [diffMatched] at h
    cases h; exact hacc
  | cons oc ocs ih =>
    intro acc r hacc h
    simp only [diffMatched, Bind.bind, Except.bind] at h
    cases h1 : diffMatchedInner recur path oc newCh acc with
    | error e => rw [h1] at h; cases h
    | ok acc1 =>
      rw [h1] at h
      exact ih _ _ (diffMatchedInner_good hrec _ _ _ hacc h1) h

theorem diffOnly_good {db : DB} {fuel : Nat} {is_new : Bool} {path : Bytes} {used : List Bytes} :
    ∀ l acc r, GoodM acc → diffOnly db fuel is_new path used l acc = .ok r → GoodM r := by
  intro l
  induction l with
  | nil =>
    intro acc r hacc h
    simp only [diffOnly] at h
    cases h; exact hacc
  | cons q rest ih =>
    intro acc r hacc h
    rcases q with ⟨n, hh⟩
    simp only [diffOnly] at h
    split at h
    · exact ih _ _ hacc h
    · simp only [Bind.bind, Except.bind] at h
      cases hm : build_folder db fuel hh is_new (build_path path n) with
      | error e => rw [hm] at h; cases h
      | ok m =>
        rw [hm] at h
        exact ih _ _ (goodM_dupdate hacc (build_folder_good _ _ _ _ _ hm)) h

theorem except_bind_ok {e : Except DiffErr DMap} {k : DMap → Except DiffErr DMap} {b : DMap}
    (h : (e >>= k) = .ok b) : ∃ a, e = .ok a ∧ k a = .ok b := by
  cases e with
  | error err => simp [Bind.bind, Except.bind] at h
  | ok a => exact ⟨a, rfl, h⟩

theorem except_bind_ok_pair {α : Type} {e : Except DiffErr α} {k : α → Except DiffErr DMap}
    {b : DMap} (h : (e >>= k) = .ok b) : ∃ a, e = .ok a ∧ k a = .ok b := by
  cases e with
  | error err => simp [Bind.bind, Except.bind] at h
  | ok a => exact ⟨a, rfl, h⟩

/-- the main induction for C1: every successful `diff_rec` produces a map all
of whose entries carry at least one side's file content. -/
theorem diff_rec_good {db : DB} :
    ∀ fuel old new path m, diff_rec db fuel old new path = .ok m → GoodM m := by
  intro fuel
  induction fuel with
  | zero => intro old new path m h; cases h
  | succ fuel ih =>
    intro old new path m h
    simp only [diff_rec] at h
    split at h
    · cases h; exact goodM_nil
    · split at h
      · rename_i of nf
        split at h
        · rename_i hor
          obtain ⟨d, hfc, h⟩ := except_bind_ok_pair h
          obtain ⟨res0, hpure, h⟩ := except_bind_ok_pair h
          simp only [pure, Except.pure, Except.ok.injEq] at hpure
          subst hpure
          obtain ⟨ur, h1, h⟩ := except_bind_ok_pair h
          obtain ⟨res2, h2, h⟩ := except_bind_ok_pair h
          have hres0 : GoodM [(path, d)] := by
            intro p hp
            rcases List.mem_singleton.mp hp with rfl
            rcases Bool.or_eq_true_iff.mp hor with h' | h'
            · exact fc_good hfc (Or.inl h')
            · exact fc_good hfc (Or.inr h')
          have g1 : GoodM ur.2 :=
            diffMatched_good (fun a b p m' hm' => ih a b p m' hm') _ _ _ hres0 h1
          have g2 : GoodM res2 := diffOnly_good _ _ _ g1 h2
          exact diffOnly_good _ _ _ g2 h
        · obtain ⟨res0, hpure, h⟩ := except_bind_ok_pair h
          simp only [pure, Except.pure, Except.ok.injEq] at hpure
          subst hpure
          obtain ⟨ur, h1, h⟩ := except_bind_ok_pair h
          obtain ⟨res2, h2, h⟩ := except_bind_ok_pair h
          have g1 : GoodM ur.2 :=
            diffMatched_good (fun a b p m' hm' => ih a b p m' hm') _ _ _ goodM_nil h1
          have g2 : GoodM res2 := diffOnly_good _ _ _ g1 h2
          exact diffOnly_good _ _ _ g2 h
      · cases h

/-! ### C8: idempotent insertion -/

theorem contents_insNode (db : DB) (k : Bytes) (f : Bool) :
    (insNode db k f).contents = db.contents := by
  unfold insNode; split <;> rfl

theorem contains_insNode (db : DB) (k : Bytes) (f : Bool) :
    (insNode db k f).contains = db.contains := by
  unfold insNode; split <;> rfl

theorem nodes_insContent (db : DB) (k d : Bytes) :
    (insContent db k d).nodes = db.nodes := by
  unfold insContent; split <;> rfl

theorem contains_insContent (db : DB) (k d : Bytes) :
    (insContent db k d).contains = db.contains := by
  unfold insContent; split <;> rfl

theorem nodes_insEdge (db : DB) (p n c : Bytes) :
    (insEdge db p n c).nodes = db.nodes := by
  unfold insEdge; split <;> rfl

theorem contents_insEdge (db : DB) (p n c : Bytes) :
    (insEdge db p n c).contents = db.contents := by
  unfold insEdge; split <;> rfl

theorem insEdges_cons (db : DB) (h : Bytes) (q : Bytes × Bytes) (rest : List (Bytes × Bytes)) :
    insEdges db h (q :: rest) = insEdges (insEdge db h q.1 q.2) h rest := rfl

theorem nodes_insEdges (db : DB) (h : Bytes) (pairs : List (Bytes × Bytes)) :
    (insEdges db h pairs).nodes = db.nodes := by
  induction pairs generalizing db with
  | nil => rfl
  | cons q rest ih => rw [insEdges_cons, ih, nodes_insEdge]

theorem contents_insEdges (db : DB) (h : Bytes) (pairs : List (Bytes × Bytes)) :
    (insEdges db h pairs).contents = db.contents := by
  induction pairs generalizing db with
  | nil => rfl
  | cons q rest ih => rw [insEdges_cons, ih, contents_insEdge]

/-- key-presence ordering between database states: inserts only grow it. -/
def dbLE (d1 d2 : DB) : Prop :=
  (∀ k, hasNodeKey d1 k = true → hasNodeKey d2 k = true) ∧
  (∀ k, hasContentKey d1 k = true → hasContentKey d2 k = true) ∧
  (∀ p n, hasEdgeKey d1 p n = true → hasEdgeKey d2 p n = true)

theorem dbLE_refl (db : DB) : dbLE db db :=
  ⟨fun _ h => h, fun _ h => h, fun _ _ h => h⟩

theorem dbLE_trans {d1 d2 d3 : DB} (h1 : dbLE d1 d2) (h2 : dbLE d2 d3) : dbLE d1 d3 :=
  ⟨fun k h => h2.1 k (h1.1 k h), fun k h => h2.2.1 k (h1.2.1 k h),
    fun p n h => h2.2.2 p n (h1.2.2 p n h)⟩

theorem dbLE_insNode (db : DB) (k : Bytes) (f : Bool) : dbLE db (insNode db k f) := by
  unfold insNode
  split
  · exact dbLE_refl db
  · refine ⟨fun k' h => ?_, fun k' h => h, fun p n h => h⟩
    simp only [hasNodeKey] at h ⊢
    simp [List.any_append, h]

theorem dbLE_insContent (db : DB) (k d : Bytes) : dbLE db (insContent db k d) := by
  unfold insContent
  split
  · exact dbLE_refl db
  · refine ⟨fun k' h => h, fun k' h => ?_, fun p n h => h⟩
    simp only [hasContentKey] at h ⊢
    simp [List.any_append, h]

theorem dbLE_insEdge (db : DB) (p n c : Bytes) : dbLE db (insEdge db p n c) := by
  unfold insEdge
  split
  · exact dbLE_refl db
  · refine ⟨fun k' h => h, fun k' h => h, fun p' n' h => ?_⟩
    simp only [hasEdgeKey] at h ⊢
    simp [List.any_append, h]

theorem dbLE_insEdges (db : DB) (h : Bytes) (pairs : List (Bytes × Bytes)) :
    dbLE db (insEdges db h pairs) := by
  induction pairs generalizing db with
  | nil => exact dbLE_refl db
  | cons q rest ih =>
    simp only [insEdges, List.foldl_cons]
    exact dbLE_trans (dbLE_insEdge db h q.1 q.2) (ih _)

mutual
theorem store_rec_le (Hf : Bytes → Bytes) : ∀ db t, dbLE db (store_rec Hf db t).2
  | db, .file d => by
    simp only [store_rec]
    exact dbLE_trans (dbLE_insContent db (Hf d) d) (dbLE_insNode _ _ _)
  | db, .dir cs => by
    have h1 := storeChildren_le Hf db cs
    simp only [store_rec]
    cases hsc : storeChildren Hf db cs with
    | mk tmp db1 =>
      rw [hsc] at h1
      exact dbLE_trans h1 (dbLE_trans (dbLE_insEdges db1 _ tmp) (dbLE_insNode _ _ _))

theorem storeChildren_le (Hf : Bytes → Bytes) : ∀ db cs, dbLE db (storeChildren Hf db cs).2
  | _, [] => dbLE_refl _
  | db, (n, t) :: rest => by
    have h1 := store_rec_le Hf db t
    simp only [storeChildren]
    cases hs : store_rec Hf db t with
    | mk hc db1 =>
      rw [hs] at h1
      have h2 := storeChildren_le Hf db1 rest
      cases hs2 : storeChildren Hf db1 rest with
      | mk ps db2 =>
        rw [hs2] at h2
        exact dbLE_trans h1 h2
end

mutual
/-- all the rows `store_rec` would insert for a tree are keyed in the
database. -/
def storedKeys (Hf : Bytes → Bytes) (db : DB) : FSTree → Bool
  | .file d => hasContentKey db (Hf d) && hasNodeKey db (Hf d)
  | .dir cs =>
    storedChildrenKeys Hf db cs &&
      (hashChildren Hf cs).all (fun p => hasEdgeKey db (hashOf Hf (.dir cs)) p.1) &&
      hasNodeKey db (hashOf Hf (.dir cs))

def storedChildrenKeys (Hf : Bytes → Bytes) (db : DB) : List (Bytes × FSTree) → Bool
  | [] => true
  | (_, c) :: rest => storedKeys Hf db c && storedChildrenKeys Hf db rest
end

mutual
theorem storedKeys_mono (Hf : Bytes → Bytes) {d1 d2 : DB} (hle : dbLE d1 d2) :
    ∀ t, storedKeys Hf d1 t = true → storedKeys Hf d2 t = true
  | .file d, h => by
    simp only [storedKeys, Bool.and_eq_true] at h ⊢
    exact ⟨hle.2.1 _ h.1, hle.1 _ h.2⟩
  | .dir cs, h => by
    simp only [storedKeys, Bool.and_eq_true, List.all_eq_true] at h ⊢
    exact ⟨⟨storedChildrenKeys_mono Hf hle cs h.1.1,
      fun p hp => hle.2.2 _ _ (h.1.2 p hp)⟩, hle.1 _ h.2⟩

theorem storedChildrenKeys_mono (Hf : Bytes → Bytes) {d1 d2 : DB} (hle : dbLE d1 d2) :
    ∀ cs, storedChildrenKeys Hf d1 cs = true → storedChildrenKeys Hf d2 cs = true
  | [], _ => rfl
  | (n, c) :: rest, h => by
    simp only [storedChildrenKeys, Bool.and_eq_true] at h ⊢
    exact ⟨storedKeys_mono Hf hle c h.1, storedChildrenKeys_mono Hf hle rest h.2⟩
end

theorem hasNodeKey_insNode (db : DB) (k : Bytes) (f : Bool) :
    hasNodeKey (insNode db k f) k = true := by
  unfold insNode
  split
  · assumption
  · simp [hasNodeKey, List.any_append]

theorem hasContentKey_insContent (db : DB) (k d : Bytes) :
    hasContentKey (insContent db k d) k = true := by
  unfold insContent
  split
  · assumption
  · simp [hasContentKey, List.any_append]

theorem hasEdgeKey_insEdge (db : DB) (p n c : Bytes) :
    hasEdgeKey (insEdge db p n c) p n = true := by
  unfold insEdge
  split
  · assumption
  · simp [hasEdgeKey, List.any_append]

theorem hasEdgeKey_insEdges (db : DB) (h : Bytes) (pairs : List (Bytes × Bytes)) :
    ∀ p ∈ pairs, hasEdgeKey (insEdges db h pairs) h p.1 = true := by
  induction pairs generalizing db with
  | nil => intro p hp; cases hp
  | cons q rest ih =>
    intro p hp
    simp only [insEdges, List.foldl_cons]
    rcases List.mem_cons.mp hp with rfl | hp'
    · exact (dbLE_insEdges _ h rest).2.2 _ _ (hasEdgeKey_insEdge db h p.1 p.2)
    · exact ih _ p hp'

theorem hasContentKey_insNode (db : DB) (k : Bytes) (f : Bool) (k' : Bytes) :
    hasContentKey (insNode db k f) k' = hasContentKey db k' := by
  unfold hasContentKey; rw [contents_insNode]

theorem hasEdgeKey_insNode (db : DB) (k : Bytes) (f : Bool) (p n : Bytes) :
    hasEdgeKey (insNode db k f) p n = hasEdgeKey db p n := by
  unfold hasEdgeKey; rw [contains_insNode]

mutual
theorem store_rec_stores (Hf : Bytes → Bytes) :
    ∀ db t, storedKeys Hf (store_rec Hf db t).2 t = true
  | db, .file d => by
    simp only [store_rec, storedKeys, Bool.and_eq_true]
    constructor
    · rw [hasContentKey_insNode]
      exact hasContentKey_insContent db (Hf d) d
    · exact hasNodeKey_insNode _ _ _
  | db, .dir cs => by
    have h1 := storeChildren_stores Hf db cs
    have hf := storeChildren_fst Hf db cs
    simp only [store_rec]
    cases hsc : storeChildren Hf db cs with
    | mk tmp db1 =>
      rw [hsc] at h1 hf
      simp only at h1 hf
      subst hf
      simp only [storedKeys, Bool.and_eq_true, List.all_eq_true]
      refine ⟨⟨?_, ?_⟩, ?_⟩
      · exact storedChildrenKeys_mono Hf
          (dbLE_trans (dbLE_insEdges db1 _ _) (dbLE_insNode _ _ _)) cs h1
      · intro p hp
        rw [hasEdgeKey_insNode]
        have := hasEdgeKey_insEdges db1
          (Hf (encodeDir (sortPairs (hashChildren Hf cs)))) (hashChildren Hf cs) p hp
        simpa [hashOf] using this
      · exact hasNodeKey_insNode _ _ _

theorem storeChildren_stores (Hf : Bytes → Bytes) :
    ∀ db cs, storedChildrenKeys Hf (storeChildren Hf db cs).2 cs = true
  | _, [] => rfl
  | db, (n, t) :: rest => by
    have h1 := store_rec_stores Hf db t
    simp only [storeChildren]
    cases hs : store_rec Hf db t with
    | mk hc db1 =>
      rw [hs] at h1
      have h2 := storeChildren_stores Hf db1 rest
      have hle := storeChildren_le Hf db1 rest
      cases hs2 : storeChildren Hf db1 rest with
      | mk ps db2 =>
        rw [hs2] at h2 hle
        simp only [storedChildrenKeys, Bool.and_eq_true]
        exact ⟨storedKeys_mono Hf hle t h1, h2⟩
end

theorem insNode_noop {db : DB} {k : Bytes} (f : Bool) (h : hasNodeKey db k = true) :
    insNode db k f = db := by
  unfold insNode; rw [if_pos h]

theorem insContent_noop {db : DB} {k : Bytes} (d : Bytes) (h : hasContentKey db k = true) :
    insContent db k d = db := by
  unfold insContent; rw [if_pos h]

theorem insEdge_noop {db : DB} {p n : Bytes} (c : Bytes) (h : hasEdgeKey db p n = true) :
    insEdge db p n c = db := by
  unfold insEdge; rw [if_pos h]

theorem insEdges_noop {db : DB} {h : Bytes} {pairs : List (Bytes × Bytes)}
    (hall : ∀ p ∈ pairs, hasEdgeKey db h p.1 = true) : insEdges db h pairs = db := by
  induction pairs with
  | nil => rfl
  | cons q rest ih =>
    rw [insEdges_cons, insEdge_noop q.2 (hall q (List.mem_cons_self _ _))]
    exact ih (fun p hp => hall p (List.mem_cons_of_mem _ hp))

mutual
theorem store_rec_noop (Hf : Bytes → Bytes) :
    ∀ db t, storedKeys Hf db t = true → store_rec Hf db t = (hashOf Hf t, db)
  | db, .file d, h => by
    simp only [storedKeys, Bool.and_eq_true] at h
    simp only [store_rec, hashOf]
    rw [insContent_noop d h.1, insNode_noop true h.2]
  | db, .dir cs, h => by
    simp only [storedKeys, Bool.and_eq_true, List.all_eq_true] at h
    have hsc := storeChildren_noop Hf db cs h.1.1
    simp only [store_rec, hsc]
    rw [insEdges_noop (by simpa [hashOf] using h.1.2)]
    rw [insNode_noop false (by simpa [hashOf] using h.2)]
    simp [hashOf]

theorem storeChildren_noop (Hf : Bytes → Bytes) :
    ∀ db cs, storedChildrenKeys Hf db cs = true →
      storeChildren Hf db cs = (hashChildren Hf cs, db)
  | _, [], _ => rfl
  | db, (n, t) :: rest, h => by
    simp only [storedChildrenKeys, Bool.and_eq_true] at h
    have h1 := store_rec_noop Hf db t h.1
    have h2 := storeChildren_noop Hf db rest h.2
    simp only [storeChildren, h1, h2, hashChildren]
end

/-- the primary keys of all three tables, pairwise distinct. -/
def keysNodup (db : DB) : Prop :=
  (db.nodes.map (·.1)).Nodup ∧ (db.contents.map (·.1)).Nodup ∧
    (db.contains.map (fun r => (r.1, r.2.1))).Nodup

theorem keysNodup_insNode {db : DB} (k : Bytes) (f : Bool) (h : keysNodup db) :
    keysNodup (insNode db k f) := by
  unfold insNode
  split
  · exact h
  · rename_i hk
    refine ⟨?_, h.2.1, h.2.2⟩
    simp only [List.map_append, List.map_cons, List.map_nil]
    rw [List.nodup_append]
    refine ⟨h.1, List.nodup_singleton _, ?_⟩
    intro a ha hb
    rcases List.mem_singleton.mp hb with rfl
    rcases List.mem_map.mp ha with ⟨r, hr, hrk⟩
    simp only [hasNodeKey, Bool.not_eq_true, List.any_eq_false] at hk
    have hc := hk r hr
    rw [hrk] at hc
    simp at hc

theorem keysNodup_insContent {db : DB} (k d : Bytes) (h : keysNodup db) :
    keysNodup (insContent db k d) := by
  unfold insContent
  split
  · exact h
  · rename_i hk
    refine ⟨h.1, ?_, h.2.2⟩
    simp only [List.map_append, List.map_cons, List.map_nil]
    rw [List.nodup_append]
    refine ⟨h.2.1, List.nodup_singleton _, ?_⟩
    intro a ha hb
    rcases List.mem_singleton.mp hb with rfl
    rcases List.mem_map.mp ha with ⟨r, hr, hrk⟩
    simp only [hasContentKey, Bool.not_eq_true, List.any_eq_false] at hk
    have hc := hk r hr
    rw [hrk] at hc
    simp at hc

theorem keysNodup_insEdge {db : DB} (p n c : Bytes) (h : keysNodup db) :
    keysNodup (insEdge db p n c) := by
  unfold insEdge
  split
  · exact h
  · rename_i hk
    refine ⟨h.1, h.2.1, ?_⟩
    simp only [List.map_append, List.map_cons, List.map_nil]
    rw [List.nodup_append]
    refine ⟨h.2.2, List.nodup_singleton _, ?_⟩
    intro a ha hb
    rcases List.mem_singleton.mp hb with rfl
    rcases List.mem_map.mp ha with ⟨r, hr, hrk⟩
    simp only [hasEdgeKey, Bool.not_eq_true, List.any_eq_false] at hk
    have hc := hk r hr
    have h1 : r.1 = p := congrArg Prod.fst hrk
    have h2 : r.2.1 = n := congrArg Prod.snd hrk
    rw [h1, h2] at hc
    simp at hc

theorem keysNodup_insEdges {db : DB} {h : Bytes} {pairs : List (Bytes × Bytes)}
    (hn : keysNodup db) : keysNodup (insEdges db h pairs) := by
  induction pairs generalizing db with
  | nil => exact hn
  | cons q rest ih =>
    rw [insEdges_cons]
    exact ih (keysNodup_insEdge _ _ _ hn)

mutual
theorem store_rec_nodup (Hf : Bytes → Bytes) :
    ∀ db t, keysNodup db → keysNodup (store_rec Hf db t).2
  | db, .file d, h => by
    simp only [store_rec]
    exact keysNodup_insNode _ _ (keysNodup_insContent _ _ h)
  | db, .dir cs, h => by
    have h1 := storeChildren_nodup Hf db cs h
    simp only [store_rec]
    cases hsc : storeChildren Hf db cs with
    | mk tmp db1 =>
      rw [hsc] at h1
      exact keysNodup_insNode _ _ (keysNodup_insEdges h1)

theorem storeChildren_nodup (Hf : Bytes → Bytes) :
    ∀ db cs, keysNodup db → keysNodup (storeChildren Hf db cs).2
  | _, [], h => h
  | db, (n, t) :: rest, h => by
    have h1 := store_rec_nodup Hf db t h
    simp only [storeChildren]
    cases hs : store_rec Hf db t with
    | mk hc db1 =>
      rw [hs] at h1
      have h2 := storeChildren_nodup Hf db1 rest h1
      cases hs2 : storeChildren Hf db1 rest with
      | mk ps db2 =>
        rw [hs2] at h2
        exact h2
end

/-! ### Path-splitting lemmas -/

theorem splitOnByte_ne_nil (sep : Nat) : ∀ s, splitOnByte sep s ≠ []
  | [] => by simp [splitOnByte]
  | c :: rest => by
    simp only [splitOnByte]
    split
    · simp
    · cases hr : splitOnByte sep rest <;> simp

theorem splitOnByte_sep_cons (sep : Nat) (s : Bytes) :
    splitOnByte sep (sep :: s) = [] :: splitOnByte sep s := by
  simp [splitOnByte]

theorem splitOnByte_append (sep : Nat) :
    ∀ a b, splitOnByte sep (a ++ sep :: b) = splitOnByte sep a ++ splitOnByte sep b
  | [], b => by
    simp [splitOnByte_sep_cons, splitOnByte]
  | c :: rest, b => by
    have ih := splitOnByte_append sep rest b
    by_cases hc : c = sep
    · subst hc
      rw [List.cons_append, splitOnByte_sep_cons, splitOnByte_sep_cons, ih]
      simp
    · rw [List.cons_append]
      simp only [splitOnByte, if_neg hc, ih]
      cases hr : splitOnByte sep rest with
      | nil => exact absurd hr (splitOnByte_ne_nil sep rest)
      | cons p ps => simp

theorem comps_append_47 (p n : Bytes) : comps (p ++ 47 :: n) = comps p ++ comps n := by
  unfold comps
  rw [splitOnByte_append]
  simp [List.filter_append]

theorem comps_append_sep (p : Bytes) : comps (p ++ [47]) = comps p := by
  have h : p ++ [47] = p ++ 47 :: [] := rfl
  rw [h, comps_append_47]
  simp [comps, splitOnByte]

theorem comps_nil : comps [] = [] := rfl

theorem comps_sep_cons (s : Bytes) : comps (47 :: s) = comps s := by
  unfold comps
  rw [splitOnByte_sep_cons]
  simp

theorem splitOnByte_no_sep (sep : Nat) :
    ∀ m, ¬m.isEmpty = true → m.contains sep = false → splitOnByte sep m = [m]
  | [], hm, _ => by simp at hm
  | c :: cs, _, hc => by
    simp only [List.contains_cons, Bool.or_eq_false_iff] at hc
    have hc1 : ¬c = sep := by
      intro hh
      subst hh
      simp at hc
    simp only [splitOnByte, if_neg hc1]
    by_cases hcs : cs.isEmpty
    · rcases List.isEmpty_iff.mp hcs with rfl
      simp [splitOnByte]
    · rw [splitOnByte_no_sep sep cs hcs hc.2]

/-- a nonempty slash-free name is a single path component. -/
theorem comps_good_name (n : Bytes) (hn : ¬n.isEmpty = true) (h47 : n.contains 47 = false) :
    comps n = [n] := by
  unfold comps
  rw [splitOnByte_no_sep 47 n hn h47]
  simp only [List.filter_cons, List.filter_nil]
  simp [List.isEmpty_iff] at hn
  simp [hn]

/-- components of a path extended through a slash with a slash-free nonempty
name: one more component. -/
theorem comps_append_name (p n : Bytes) (hn : ¬n.isEmpty = true) (h47 : n.contains 47 = false) :
    comps (p ++ 47 :: n) = comps p ++ [n] := by
  rw [comps_append_47, comps_good_name n hn h47]

/-! ### C3: fetch fails without touching an occupied target -/

theorem insTree_none_of_resolve {fs : FS} {cs : List Bytes} {u : FSTree}
    (h : resolveNode (.dir fs) cs = some u) : ∀ t, insTree fs cs t = none := by
  induction cs generalizing fs u with
  | nil => intro t; rfl
  | cons n ns ih =>
    intro t
    simp only [resolveNode] at h
    cases hl : lookupFS fs n with
    | none => rw [hl] at h; cases h
    | some c =>
      rw [hl] at h
      cases ns with
      | nil =>
        simp only [insTree, hl, Option.isNone_none]
        simp [hl]
      | cons m ms =>
        cases c with
        | file d => simp [resolveNode] at h
        | dir sub =>
          simp only [insTree, hl]
          rw [ih h t]
          rfl

/-- the normalized fetch target always ends in a slash. -/
theorem fetch_path_getLast (path : Bytes) (c : Nat) (hc : path.getLast? = some c) :
    (if c = 47 then path else path ++ [47]).getLast? = some 47 := by
  split
  · rename_i h; rw [hc, h]
  · simp [List.getLast?_append]

theorem writeFile_slash (fs : FS) (p : Bytes) (d : Bytes) (h : p.getLast? = some 47) :
    writeFile fs p d = none := by
  unfold writeFile
  rw [if_pos h]

/-- a fetch whose target path carries an entry fails before writing anything
(the directory branch hits `mkdir` on an existing path, the file branch hits
the trailing slash, a missing hash or row fails earlier still). -/
theorem fetch_false_of_exists (db : DB) (fuel : Nat) (fs : FS) (hash p : Bytes)
    (hex : existsAt fs p = true) : fetch db fuel fs hash p = (false, fs) := by
  unfold fetch
  cases hc : p.getLast? with
  | none => rfl
  | some c =>
    have hlast := fetch_path_getLast p c hc
    have hcomps : comps (if c = 47 then p else p ++ [47]) = comps p := by
      split
      · rfl
      · exact comps_append_sep p
    cases fuel with
    | zero => rfl
    | succ fuel =>
      simp only [fetch_creation, List.append_nil]
      cases hn : lookupNode db hash with
      | none => rfl
      | some b =>
        cases b with
        | true =>
          cases hco : lookupContent db hash with
          | none => rfl
          | some data =>
            show (match writeFile fs (if c = 47 then p else p ++ [47]) data with
                  | none => (false, fs)
                  | some fs2 => (true, fs2)) = (false, fs)
            rw [writeFile_slash fs _ data hlast]
        | false =>
          unfold existsAt at hex
          cases hr : resolveNode (.dir fs) (comps p) with
          | none => rw [hr] at hex; cases hex
          | some u =>
            have hmk : mkdirP fs (if c = 47 then p else p ++ [47]) = none := by
              unfold mkdirP
              rw [hcomps]
              exact insTree_none_of_resolve hr _
            show (match mkdirP fs (if c = 47 then p else p ++ [47]) with
                  | none => (false, fs)
                  | some fs1 =>
                    fetchChildren
                      (fun g h n => fetch_creation db fuel g
                        ((if c = 47 then p else p ++ [47]) ++ [47]) h n)
                      ((if c = 47 then p else p ++ [47]) ++ [47]) fs1
                      (childrenOf db hash)) = (false, fs)
            rw [hmk]

/-- a fetch of a hash with no `nodes` row fails and leaves the filesystem
unchanged. -/
theorem fetch_false_of_missing (db : DB) (fuel : Nat) (fs : FS) (hash p : Bytes)
    (h : lookupNode db hash = none) : fetch db fuel fs hash p = (false, fs) := by
  unfold fetch
  cases hc : p.getLast? with
  | none => rfl
  | some c =>
    cases fuel with
    | zero => rfl
    | succ fuel => simp [fetch_creation, h]

/-! ### Filesystem insertion algebra (for C4 and C6) -/

theorem lookupFS_eq_none {cs : FS} {n : Bytes} (h : ∀ p ∈ cs, p.1 ≠ n) :
    lookupFS cs n = none := by
  unfold lookupFS
  rw [List.find?_eq_none.mpr]
  · rfl
  · intro p hp
    simp [h p hp]

theorem find?_of_lookupFS_none {cs : FS} {n : Bytes} (h : lookupFS cs n = none) :
    cs.find? (fun p => p.1 == n) = none := by
  unfold lookupFS at h
  exact Option.map_eq_none'.mp h

theorem lookupFS_append_self {cs : FS} {n : Bytes} (v : FSTree) (h : lookupFS cs n = none) :
    lookupFS (cs ++ [(n, v)]) n = some v := by
  unfold lookupFS
  rw [List.find?_append, find?_of_lookupFS_none h]
  simp

theorem setChild_fresh {cs : FS} {n : Bytes} (v : FSTree) (h : lookupFS cs n = none) :
    setChild cs n v = cs ++ [(n, v)] := by
  induction cs with
  | nil => rfl
  | cons q rest ih =>
    rcases q with ⟨m, u⟩
    have hm : ¬m = n := by
      intro hh
      subst hh
      simp [lookupFS] at h
    simp only [setChild, if_neg hm, List.cons_append]
    congr 1
    apply ih
    simp only [lookupFS, List.find?_cons] at h
    split at h
    · cases h
    · exact h

theorem setChild_append_self {cs : FS} {n : Bytes} (x v : FSTree) (h : lookupFS cs n = none) :
    setChild (cs ++ [(n, x)]) n v = cs ++ [(n, v)] := by
  induction cs with
  | nil => simp [setChild]
  | cons q rest ih =>
    rcases q with ⟨m, u⟩
    have hm : ¬m = n := by
      intro hh
      subst hh
      simp [lookupFS] at h
    simp only [List.cons_append, setChild, if_neg hm]
    congr 1
    apply ih
    simp only [lookupFS, List.find?_cons] at h
    split at h
    · cases h
    · exact h

theorem lookupFS_setChild_self (cs : FS) (n : Bytes) (v : FSTree) :
    lookupFS (setChild cs n v) n = some v := by
  induction cs with
  | nil => simp [setChild, lookupFS]
  | cons q rest ih =>
    rcases q with ⟨m, u⟩
    by_cases hm : m = n
    · simp [setChild, hm, lookupFS]
    · simp only [setChild, if_neg hm]
      simp only [lookupFS, List.find?_cons]
      split
      · rename_i hq
        simp only [beq_iff_eq] at hq
        exact absurd hq hm
      · exact ih

theorem setChild_setChild (cs : FS) (n : Bytes) (u v : FSTree) :
    setChild (setChild cs n u) n v = setChild cs n v := by
  induction cs with
  | nil => simp [setChild]
  | cons q rest ih =>
    rcases q with ⟨m, w⟩
    by_cases hm : m = n
    · simp [setChild, hm]
    · simp [setChild, hm, ih]

theorem insTree_retarget :
    ∀ (cs : List Bytes) (fs : FS) (t : FSTree) (r : FS), insTree fs cs t = some r →
      ∀ u, ∃ z, insTree fs cs u = some z
  | [], _, _, _, h, _ => by cases h
  | [n], fs, t, r, h, u => by
    simp only [insTree] at h ⊢
    split at h
    · rename_i hl
      exact ⟨fs ++ [(n, u)], by rw [if_pos hl]⟩
    · cases h
  | n :: m :: ns, fs, t, r, h, u => by
    cases hl : lookupFS fs n with
    | none => simp only [insTree, hl] at h; exact Option.noConfusion h
    | some c =>
      cases c with
      | file d => simp only [insTree, hl] at h; exact Option.noConfusion h
      | dir sub =>
        simp only [insTree, hl] at h ⊢
        cases hi : insTree sub (m :: ns) t with
        | none => rw [hi] at h; cases h
        | some s =>
          obtain ⟨z, hz⟩ := insTree_retarget (m :: ns) sub t s hi u
          exact ⟨setChild fs n (.dir z), by rw [hz]; rfl⟩

theorem insTree_resolve :
    ∀ (cs : List Bytes) (fs : FS) (t : FSTree) (r : FS), insTree fs cs t = some r →
      resolveNode (.dir r) cs = some t
  | [], _, _, _, h => by cases h
  | [n], fs, t, r, h => by
    simp only [insTree] at h
    split at h
    · rename_i hl
      cases h
      simp only [resolveNode]
      rw [lookupFS_append_self t (Option.isNone_iff_eq_none.mp hl)]
    · cases h
  | n :: m :: ns, fs, t, r, h => by
    cases hl : lookupFS fs n with
    | none => simp only [insTree, hl] at h; exact Option.noConfusion h
    | some c =>
      cases c with
      | file d => simp only [insTree, hl] at h; exact Option.noConfusion h
      | dir sub =>
        simp only [insTree, hl] at h
        cases hi : insTree sub (m :: ns) t with
        | none => rw [hi] at h; cases h
        | some s =>
          rw [hi] at h
          simp only [Option.map_some'] at h
          cases h
          simp only [resolveNode, lookupFS_setChild_self]
          exact insTree_resolve (m :: ns) sub t s hi

theorem insTree_snoc :
    ∀ (cs : List Bytes) (fs done fsk : FS),
      insTree fs cs (.dir done) = some fsk →
      ∀ (n : Bytes), lookupFS done n = none →
      ∀ u, insTree fsk (cs ++ [n]) u = insTree fs cs (.dir (done ++ [(n, u)]))
  | [], _, _, _, h, _, _, _ => by cases h
  | [m], fs, done, fsk, h, n, hn, u => by
    simp only [insTree] at h
    split at h
    · rename_i hl
      cases h
      have hl2 : lookupFS fs m = none := Option.isNone_iff_eq_none.mp hl
      show insTree (fs ++ [(m, FSTree.dir done)]) [m, n] u = _
      simp only [insTree]
      rw [lookupFS_append_self _ hl2]
      simp only [insTree]
      rw [if_pos (by rw [hn]; rfl)]
      simp only [Option.map_some']
      rw [setChild_append_self _ _ hl2, if_pos hl]
    · cases h
  | m :: k :: ks, fs, done, fsk, h, n, hn, u => by
    cases hl : lookupFS fs m with
    | none => simp only [insTree, hl] at h; exact Option.noConfusion h
    | some c =>
      cases c with
      | file d => simp only [insTree, hl] at h; exact Option.noConfusion h
      | dir sub =>
        simp only [insTree, hl] at h
        cases hi : insTree sub (k :: ks) (.dir done) with
        | none => rw [hi] at h; cases h
        | some subk =>
          rw [hi] at h
          simp only [Option.map_some'] at h
          cases h
          have ih := insTree_snoc (k :: ks) sub done subk hi n hn u
          show insTree (setChild fs m (.dir subk)) (m :: ((k :: ks) ++ [n])) u = _
          rw [List.cons_append]
          simp only [insTree, lookupFS_setChild_self, hl]
          rw [← List.cons_append, ih]
          cases hx : insTree sub (k :: ks) (.dir (done ++ [(n, u)])) with
          | none => rfl
          | some s =>
            simp only [Option.map_some']
            rw [setChild_setChild]

theorem setFileGo_of_insTree :
    ∀ (cs : List Bytes) (fs : FS) (d : Bytes) (r : FS),
      insTree fs cs (.file d) = some r → setFileGo fs cs d = some r
  | [], _, _, _, h => by cases h
  | [n], fs, d, r, h => by
    simp only [insTree] at h
    split at h
    · rename_i hl
      cases h
      have hl2 : lookupFS fs n = none := Option.isNone_iff_eq_none.mp hl
      simp only [setFileGo, hl2]
      rw [setChild_fresh _ hl2]
    · cases h
  | n :: m :: ns, fs, d, r, h => by
    cases hl : lookupFS fs n with
    | none => simp only [insTree, hl] at h; exact Option.noConfusion h
    | some c =>
      cases c with
      | file d2 => simp only [insTree, hl] at h; exact Option.noConfusion h
      | dir sub =>
        simp only [insTree, hl] at h
        cases hi : insTree sub (m :: ns) (.file d) with
        | none => rw [hi] at h; cases h
        | some s =>
          rw [hi] at h
          simp only [Option.map_some'] at h
          cases h
          simp only [setFileGo, hl]
          rw [setFileGo_of_insTree (m :: ns) sub d s hi]
          rfl

/-! ### Good-name helpers -/

theorem goodChildrenB_props :
    ∀ l : List (Bytes × FSTree), goodChildrenB l = true →
      ∀ p ∈ l, ¬p.1.isEmpty = true ∧ p.1.contains 47 = false ∧ goodTreeB p.2 = true
  | [], _, p, hp => by cases hp
  | (n, c) :: rest, h, p, hp => by
    simp only [goodChildrenB, Bool.and_eq_true, Bool.not_eq_true'] at h
    rcases List.mem_cons.mp hp with rfl | hp'
    · exact ⟨by simp [h.1.1.1.1], h.1.1.1.2, h.1.2⟩
    · exact goodChildrenB_props rest h.2 p hp'

theorem goodChildrenB_append :
    ∀ a b : List (Bytes × FSTree), goodChildrenB (a ++ b) = true →
      goodChildrenB b = true ∧ ∀ p ∈ a, ∀ q ∈ b, p.1 ≠ q.1
  | [], b, h => ⟨h, fun p hp => by cases hp⟩
  | (n, c) :: rest, b, h => by
    simp only [List.cons_append, goodChildrenB, Bool.and_eq_true, Bool.not_eq_true'] at h
    have ih := goodChildrenB_append rest b h.2
    refine ⟨ih.1, fun p hp q hq => ?_⟩
    rcases List.mem_cons.mp hp with rfl | hp'
    · intro hh
      have hno := h.1.1.2
      rw [List.any_eq_false] at hno
      have h2 := hno q (List.mem_append_right rest hq)
      rw [← hh] at h2
      simp at h2
    · exact ih.2 p hp' q hq

theorem mem_ne_47_of_contains_false {n : Bytes} (h47 : n.contains 47 = false) :
    ∀ b ∈ n, b ≠ 47 := by
  intro b hb hb47
  subst hb47
  rw [List.contains_eq_any_beq, List.any_eq_false] at h47
  exact h47 47 hb (by simp)

theorem getLast?_ne47 {n : Bytes} (x : Bytes) (hn : ¬n.isEmpty = true)
    (h47 : n.contains 47 = false) : (x ++ n).getLast? ≠ some 47 := by
  intro h
  have hmem : (47 : Nat) ∈ x ++ n := List.mem_of_getLast?_eq_some h
  have hne : n ≠ [] := by simpa [List.isEmpty_iff] using hn
  rw [List.getLast?_append] at h
  cases hl : n.getLast? with
  | none => exact hne (List.getLast?_eq_none_iff.mp hl)
  | some a =>
    rw [hl] at h
    simp only [Option.or_some, Option.some.injEq] at h
    subst h
    exact mem_ne_47_of_contains_false h47 _ (List.mem_of_getLast?_eq_some hl) rfl

/-! ### C4: a directory fetch writes exactly the materialized tree -/

theorem fetchChildren_ins (db : DB) (fuel : Nat) (dirpath : Bytes) (cs : List Bytes)
    (hrec : ∀ (g : FS) (h n : Bytes) (t : FSTree) (r : FS),
      materialize db fuel h = some t → goodTreeB t = true →
      ¬n.isEmpty = true → n.contains 47 = false →
      insTree g (cs ++ [n]) t = some r →
      fetch_creation db fuel g dirpath h n = (true, r)) :
    ∀ (rows : List (Bytes × Bytes)) (ts done : List (Bytes × FSTree)) (fs0 fsk final : FS),
      matChildren (materialize db fuel) rows = some ts →
      goodChildrenB (done ++ ts) = true →
      insTree fs0 cs (.dir done) = some fsk →
      insTree fs0 cs (.dir (done ++ ts)) = some final →
      fetchChildren (fun g h n => fetch_creation db fuel g dirpath h n) dirpath fsk rows
        = (true, final) := by
  intro rows
  induction rows with
  | nil =>
    intro ts done fs0 fsk final h1 h2 h3 h4
    simp only [matChildren] at h1
    cases h1
    rw [List.append_nil] at h4
    rw [h3] at h4
    cases h4
    rfl
  | cons q rest ih =>
    intro ts done fs0 fsk final h1 h2 h3 h4
    rcases q with ⟨n, ch⟩
    simp only [matChildren] at h1
    cases hm : materialize db fuel ch with
    | none => rw [hm] at h1; cases h1
    | some t0 =>
      rw [hm] at h1
      cases hmr : matChildren (materialize db fuel) rest with
      | none => rw [hmr] at h1; cases h1
      | some ts2 =>
        rw [hmr] at h1
        cases h1
        obtain ⟨hgb, hfresh⟩ := goodChildrenB_append done ((n, t0) :: ts2) h2
        obtain ⟨hn_ne, hn47, ht0good⟩ :=
          goodChildrenB_props _ hgb (n, t0) (List.mem_cons_self _ _)
        have hdone : lookupFS done n = none := by
          apply lookupFS_eq_none
          intro p hp
          exact hfresh p hp (n, t0) (List.mem_cons_self _ _)
        obtain ⟨fs1, hfs1⟩ := insTree_retarget cs fs0 _ final h4 (.dir (done ++ [(n, t0)]))
        have hins1 : insTree fsk (cs ++ [n]) t0 = some fs1 := by
          rw [insTree_snoc cs fs0 done fsk h3 n hdone t0]
          exact hfs1
        have hstep := hrec fsk ch n t0 fs1 hm ht0good hn_ne hn47 hins1
        simp only [fetchChildren, hstep]
        apply ih ts2 (done ++ [(n, t0)]) fs0 fs1 final hmr
        · rw [List.append_assoc]
          simpa using h2
        · exact hfs1
        · rw [List.append_assoc]
          simpa using h4

theorem fetch_creation_ins (db : DB) :
    ∀ (fuel : Nat) (h : Bytes) (t : FSTree) (fs : FS) (path name : Bytes) (r : FS),
      materialize db fuel h = some t → goodTreeB t = true →
      (t.isFileB = true → ¬(path ++ name).getLast? = some 47) →
      insTree fs (comps (path ++ name)) t = some r →
      fetch_creation db fuel fs path h name = (true, r) := by
  intro fuel
  induction fuel with
  | zero => intro h t fs path name r hm; cases hm
  | succ fuel ih =>
    intro h t fs path name r hm hgood hlast hins
    simp only [materialize] at hm
    cases hn : lookupNode db h with
    | none => rw [hn] at hm; cases hm
    | some b =>
      rw [hn] at hm
      cases b with
      | true =>
        cases hc : lookupContent db h with
        | none => rw [hc] at hm; cases hm
        | some data =>
          rw [hc] at hm
          simp only [Option.map_some'] at hm
          cases hm
          have hw : writeFile fs (path ++ name) data = some r := by
            unfold writeFile
            rw [if_neg (hlast rfl)]
            exact setFileGo_of_insTree _ _ _ _ hins
          simp only [fetch_creation, hn, hc, hw]
      | false =>
        cases hmc : matChildren (materialize db fuel) (childrenOf db h) with
        | none => rw [hmc] at hm; cases hm
        | some ts =>
          rw [hmc] at hm
          simp only [Option.map_some'] at hm
          cases hm
          obtain ⟨fs1, hfs1⟩ := insTree_retarget _ _ _ _ hins (.dir [])
          have hmk : mkdirP fs (path ++ name) = some fs1 := hfs1
          have hchildren := fetchChildren_ins db fuel (path ++ name ++ [47])
            (comps (path ++ name))
            (fun g h2 n t2 r2 hm2 hg2 hne2 h472 hins2 => by
              apply ih h2 t2 g (path ++ name ++ [47]) n r2 hm2 hg2
              · intro _
                exact getLast?_ne47 _ hne2 h472
              · rw [List.append_assoc (path ++ name) [47] n]
                rw [show ([47] : Bytes) ++ n = 47 :: n from rfl]
                rw [comps_append_name _ n hne2 h472]
                exact hins2)
            (childrenOf db h) ts [] fs fs1 r hmc
            (by simpa [goodTreeB] using hgood) hfs1 (by simpa using hins)
          simp only [fetch_creation, hn, hmk]
          exact hchildren

/-- successful materialization of a directory node at an insertable target. -/
theorem fetch_ins (db : DB) (fuel : Nat) (fs : FS) (h p : Bytes) (t : FSTree) (r : FS)
    (hm : materialize db fuel h = some t) (hdir : t.isFileB = false)
    (hgood : goodTreeB t = true) (hins : insTree fs (comps p) t = some r) :
    fetch db fuel fs h p = (true, r) := by
  unfold fetch
  cases hc : p.getLast? with
  | none =>
    rcases List.getLast?_eq_none_iff.mp hc with rfl
    simp only [comps_nil, insTree] at hins
    exact Option.noConfusion hins
  | some c =>
    have hcomps : comps ((if c = 47 then p else p ++ [47]) ++ []) = comps p := by
      rw [List.append_nil]
      split
      · rfl
      · exact comps_append_sep p
    apply fetch_creation_ins db fuel h t fs _ [] r hm hgood
    · intro hf
      rw [hf] at hdir
      cases hdir
    · rw [hcomps]
      exact hins

/-- fetching a hash stored as a file node always fails: the target gets a
trailing slash appended and opening that as a file raises. -/
theorem fetch_file_false (db : DB) (fuel : Nat) (fs : FS) (h p : Bytes)
    (hn : lookupNode db h = some true) : fetch db fuel fs h p = (false, fs) := by
  unfold fetch
  cases hc : p.getLast? with
  | none => rfl
  | some c =>
    have hlast := fetch_path_getLast p c hc
    cases fuel with
    | zero => rfl
    | succ fuel =>
      simp only [fetch_creation, List.append_nil, hn]
      cases hco : lookupContent db h with
      | none => rfl
      | some data =>
        show (match writeFile fs (if c = 47 then p else p ++ [47]) data with
              | none => (false, fs)
              | some fs2 => (true, fs2)) = (false, fs)
        rw [writeFile_slash fs _ data hlast]

/-- completeness: when a fetch of a directory hash succeeds, the resulting
filesystem holds exactly the materialized tree at the target. -/
theorem fetch_success_resolve (db : DB) (fuel : Nat) (fs : FS) (h q : Bytes) (fs2 : FS)
    (t : FSTree)
    (hf : fetch db fuel fs h q = (true, fs2)) (hm : materialize db fuel h = some t)
    (hdir : t.isFileB = false) (hgood : goodTreeB t = true) :
    resolveNode (.dir fs2) (comps q) = some t := by
  unfold fetch at hf
  cases hc : q.getLast? with
  | none => rw [hc] at hf; cases hf
  | some c =>
    rw [hc] at hf
    replace hf : fetch_creation db fuel fs (if c = 47 then q else q ++ [47]) h []
        = (true, fs2) := hf
    cases fuel with
    | zero => cases hf
    | succ fuel =>
      have hcomps : comps ((if c = 47 then q else q ++ [47]) ++ []) = comps q := by
        rw [List.append_nil]
        split
        · rfl
        · exact comps_append_sep q
      cases ht : t with
      | file d => rw [ht] at hdir; cases hdir
      | dir ts =>
        rw [ht] at hm hgood
        simp only [materialize] at hm
        cases hn : lookupNode db h with
        | none => rw [hn] at hm; cases hm
        | some b =>
          rw [hn] at hm
          cases b with
          | true =>
            cases hco : lookupContent db h with
            | none => rw [hco] at hm; cases hm
            | some data => rw [hco] at hm; simp at hm
          | false =>
            cases hmk : mkdirP fs ((if c = 47 then q else q ++ [47]) ++ []) with
            | none =>
              rw [show fetch_creation db (fuel + 1) fs (if c = 47 then q else q ++ [47]) h []
                  = (false, fs) from by simp only [fetch_creation, hn, hmk]] at hf
              cases hf
            | some fs1 =>
              have hins0 : insTree fs (comps q) (.dir ([] : List (Bytes × FSTree)))
                  = some fs1 := by
                rw [← hcomps]
                exact hmk
              obtain ⟨z, hz⟩ := insTree_retarget _ _ _ _ hins0 (.dir ts)
              have hfc := fetch_creation_ins db (fuel + 1) h (.dir ts) fs
                (if c = 47 then q else q ++ [47]) [] z
                (by simp only [materialize, hn]; exact hm) hgood
                (by intro hff; cases hff)
                (by rw [hcomps]; exact hz)
              rw [hfc] at hf
              cases hf
              exact insTree_resolve _ _ _ _ hz

/-! ### C6: roundtrip machinery — stored-tree predicate and store invariant -/

mutual
/-- all rows describing a tree are present and exact in the database: the
`nodes` row carries the right kind, a file's `contents` row carries its
bytes, and a directory's `contains` rows are exactly its (name, child hash)
pairs, recursively. -/
def StoredT (Hf : Bytes → Bytes) (db : DB) : FSTree → Prop
  | .file d => lookupNode db (Hf d) = some true ∧ lookupContent db (Hf d) = some d
  | .dir cs => lookupNode db (hashOf Hf (.dir cs)) = some false ∧
      childrenOf db (hashOf Hf (.dir cs)) = hashChildren Hf cs ∧ StoredAll Hf db cs

def StoredAll (Hf : Bytes → Bytes) (db : DB) : List (Bytes × FSTree) → Prop
  | [] => True
  | (_, c) :: rest => StoredT Hf db c ∧ StoredAll Hf db rest
end

/-- soundness invariant tying every database row to a subtree of the tree
being stored. -/
def InvDB (Hf : Bytes → Bytes) (t0 : FSTree) (db : DB) : Prop :=
  (∀ r ∈ db.nodes, ∃ u ∈ subtreesList t0, r.1 = hashOf Hf u ∧ r.2 = u.isFileB) ∧
  (∀ r ∈ db.contents, ∃ d, FSTree.file d ∈ subtreesList t0 ∧ r.1 = Hf d ∧ r.2 = d) ∧
  (∀ h, childrenOf db h ≠ [] → ∃ cs, FSTree.dir cs ∈ subtreesList t0 ∧
    h = hashOf Hf (.dir cs) ∧ childrenOf db h = hashChildren Hf cs)

theorem invDB_empty (Hf : Bytes → Bytes) (t0 : FSTree) : InvDB Hf t0 emptyDB := by
  refine ⟨?_, ?_, ?_⟩
  · intro r hr; cases hr
  · intro r hr; cases hr
  · intro h hh; exact absurd rfl hh

theorem self_mem_subtreesList : ∀ t : FSTree, t ∈ subtreesList t
  | .file d => by simp [subtreesList]
  | .dir cs => by simp [subtreesList]

mutual
theorem mem_subtrees_sub : ∀ (t u : FSTree), u ∈ subtreesList t →
    ∀ w ∈ subtreesList u, w ∈ subtreesList t
  | .file d, u, hu => by
    simp only [subtreesList, List.mem_singleton] at hu
    subst hu
    exact fun w hw => hw
  | .dir cs, u, hu => by
    simp only [subtreesList, List.mem_cons] at hu
    rcases hu with rfl | hu2
    · exact fun w hw => hw
    · intro w hw
      simp only [subtreesList, List.mem_cons]
      exact Or.inr (mem_subtreesChildren_sub cs u hu2 w hw)

theorem mem_subtreesChildren_sub : ∀ (cs : List (Bytes × FSTree)) (u : FSTree),
    u ∈ subtreesChildren cs → ∀ w ∈ subtreesList u, w ∈ subtreesChildren cs
  | [], u, hu => by cases hu
  | (n, c) :: rest, u, hu => by
    simp only [subtreesChildren, List.mem_append] at hu ⊢
    rcases hu with h | h
    · exact fun w hw => Or.inl (mem_subtrees_sub c u h w hw)
    · exact fun w hw => Or.inr (mem_subtreesChildren_sub rest u h w hw)
end

theorem child_mem_subtreesChildren :
    ∀ (cs : List (Bytes × FSTree)) (p : Bytes × FSTree), p ∈ cs →
      p.2 ∈ subtreesChildren cs
  | [], _, hp => by cases hp
  | (n, c) :: rest, p, hp => by
    simp only [subtreesChildren, List.mem_append]
    rcases List.mem_cons.mp hp with rfl | hp2
    · exact Or.inl (self_mem_subtreesList _)
    · exact Or.inr (child_mem_subtreesChildren rest p hp2)

theorem child_mem_of_dir_mem {t0 : FSTree} {cs : List (Bytes × FSTree)}
    (hu : FSTree.dir cs ∈ subtreesList t0) : ∀ p ∈ cs, p.2 ∈ subtreesList t0 := by
  intro p hp
  apply mem_subtrees_sub t0 (.dir cs) hu
  simp only [subtreesList, List.mem_cons]
  exact Or.inr (child_mem_subtreesChildren cs p hp)

mutual
theorem goodTreeB_mem : ∀ t, goodTreeB t = true → ∀ u ∈ subtreesList t, goodTreeB u = true
  | .file d, h, u, hu => by
    simp only [subtreesList, List.mem_singleton] at hu
    subst hu
    exact h
  | .dir cs, h, u, hu => by
    simp only [subtreesList, List.mem_cons] at hu
    rcases hu with rfl | hu2
    · exact h
    · exact goodChildrenB_subtrees cs (by simpa [goodTreeB] using h) u hu2

theorem goodChildrenB_subtrees : ∀ cs, goodChildrenB cs = true →
    ∀ u ∈ subtreesChildren cs, goodTreeB u = true
  | [], _, u, hu => by cases hu
  | (n, c) :: rest, h, u, hu => by
    simp only [goodChildrenB, Bool.and_eq_true] at h
    simp only [subtreesChildren, List.mem_append] at hu
    rcases hu with h2 | h2
    · exact goodTreeB_mem c h.1.2 u h2
    · exact goodChildrenB_subtrees rest h.2 u h2
end

/-! ### Lookup and frame lemmas for database inserts -/

theorem find?_append_some {α : Type} {l l2 : List α} {p : α → Bool} {a : α}
    (h : l.find? p = some a) : (l ++ l2).find? p = some a := by
  rw [List.find?_append, h]
  rfl

theorem find?_of_any_false {α : Type} {l : List α} {p : α → Bool}
    (h : l.any p = false) : l.find? p = none := by
  rw [List.find?_eq_none]
  intro x hx
  rw [List.any_eq_false] at h
  exact h x hx

theorem lookupNode_insNode_pres {db : DB} {k : Bytes} {v : Bool}
    (h : lookupNode db k = some v) (k2 : Bytes) (f : Bool) :
    lookupNode (insNode db k2 f) k = some v := by
  unfold insNode
  split
  · exact h
  · unfold lookupNode at h ⊢
    cases hf : db.nodes.find? (fun r => r.1 == k) with
    | none => rw [hf] at h; cases h
    | some r =>
      rw [hf] at h
      simp only [find?_append_some hf]
      exact h

theorem lookupNode_insNode_new {db : DB} {k : Bytes} (f : Bool)
    (h : hasNodeKey db k = false) : lookupNode (insNode db k f) k = some f := by
  unfold insNode
  rw [if_neg (by simp [h])]
  unfold lookupNode
  rw [List.find?_append, find?_of_any_false h]
  simp

theorem lookupNode_justify {db : DB} {k : Bytes} {v : Bool}
    (h : lookupNode db k = some v) : ∃ r ∈ db.nodes, r.1 = k ∧ r.2 = v := by
  unfold lookupNode at h
  cases hf : db.nodes.find? (fun r => r.1 == k) with
  | none => rw [hf] at h; cases h
  | some r =>
    rw [hf] at h
    refine ⟨r, List.mem_of_find?_eq_some hf, ?_, by simpa using h⟩
    have := List.find?_some hf
    simpa using this

theorem lookupContent_insContent_pres {db : DB} {k : Bytes} {v : Bytes}
    (h : lookupContent db k = some v) (k2 d : Bytes) :
    lookupContent (insContent db k2 d) k = some v := by
  unfold insContent
  split
  · exact h
  · unfold lookupContent at h ⊢
    cases hf : db.contents.find? (fun r => r.1 == k) with
    | none => rw [hf] at h; cases h
    | some r =>
      rw [hf] at h
      simp only [find?_append_some hf]
      exact h

theorem lookupContent_insContent_new {db : DB} {k : Bytes} (d : Bytes)
    (h : hasContentKey db k = false) : lookupContent (insContent db k d) k = some d := by
  unfold insContent
  rw [if_neg (by simp [h])]
  unfold lookupContent
  rw [List.find?_append, find?_of_any_false h]
  simp

theorem lookupContent_justify {db : DB} {k v : Bytes}
    (h : lookupContent db k = some v) : ∃ r ∈ db.contents, r.1 = k ∧ r.2 = v := by
  unfold lookupContent at h
  cases hf : db.contents.find? (fun r => r.1 == k) with
  | none => rw [hf] at h; cases h
  | some r =>
    rw [hf] at h
    refine ⟨r, List.mem_of_find?_eq_some hf, ?_, by simpa using h⟩
    have := List.find?_some hf
    simpa using this

theorem lookupNode_insContent (db : DB) (k d k2 : Bytes) :
    lookupNode (insContent db k d) k2 = lookupNode db k2 := by
  unfold lookupNode
  rw [nodes_insContent]

theorem lookupContent_insNode (db : DB) (k : Bytes) (f : Bool) (k2 : Bytes) :
    lookupContent (insNode db k f) k2 = lookupContent db k2 := by
  unfold lookupContent
  rw [contents_insNode]

theorem lookupNode_insEdges (db : DB) (h : Bytes) (pairs : List (Bytes × Bytes)) (k : Bytes) :
    lookupNode (insEdges db h pairs) k = lookupNode db k := by
  unfold lookupNode
  rw [nodes_insEdges]

theorem lookupContent_insEdges (db : DB) (h : Bytes) (pairs : List (Bytes × Bytes)) (k : Bytes) :
    lookupContent (insEdges db h pairs) k = lookupContent db k := by
  unfold lookupContent
  rw [contents_insEdges]

theorem childrenOf_insNode (db : DB) (k : Bytes) (f : Bool) (p : Bytes) :
    childrenOf (insNode db k f) p = childrenOf db p := by
  unfold childrenOf
  rw [contains_insNode]

theorem childrenOf_insContent (db : DB) (k d p : Bytes) :
    childrenOf (insContent db k d) p = childrenOf db p := by
  unfold childrenOf
  rw [contains_insContent]

theorem childrenOf_insEdge_other {db : DB} {p n c q : Bytes} (hq : q ≠ p) :
    childrenOf (insEdge db p n c) q = childrenOf db q := by
  unfold insEdge
  split
  · rfl
  · unfold childrenOf
    simp only [List.filterMap_append]
    rw [show (([(p, n, c)] : List (Bytes × Bytes × Bytes)).filterMap
        (fun r => if r.1 == q then some r.2 else none)) = [] from by
      simp [Ne.symm hq]]
    simp

theorem hasEdgeKey_of_mem_childrenOf {db : DB} {p n c : Bytes}
    (h : (n, c) ∈ childrenOf db p) : hasEdgeKey db p n = true := by
  unfold childrenOf at h
  rcases List.mem_filterMap.mp h with ⟨r, hr, hrc⟩
  split at hrc
  · rename_i hrp
    unfold hasEdgeKey
    rw [List.any_eq_true]
    refine ⟨r, hr, ?_⟩
    have h2 := Option.some.inj hrc
    simp only [Bool.and_eq_true]
    exact ⟨hrp, by simp [h2]⟩
  · cases hrc

theorem mem_childrenOf_of_hasEdgeKey {db : DB} {p n : Bytes}
    (h : hasEdgeKey db p n = true) : ∃ c, (n, c) ∈ childrenOf db p := by
  unfold hasEdgeKey at h
  rw [List.any_eq_true] at h
  rcases h with ⟨r, hr, hpr⟩
  simp only [Bool.and_eq_true, beq_iff_eq] at hpr
  refine ⟨r.2.2, ?_⟩
  unfold childrenOf
  rw [List.mem_filterMap]
  refine ⟨r, hr, ?_⟩
  rw [if_pos (by simp [hpr.1])]
  rw [← hpr.2]

theorem childrenOf_insEdges_fresh {h : Bytes} :
    ∀ (pairs : List (Bytes × Bytes)) (db : DB),
      (∀ p ∈ pairs, hasEdgeKey db h p.1 = false) →
      (pairs.map Prod.fst).Nodup →
      childrenOf (insEdges db h pairs) h = childrenOf db h ++ pairs
  | [], db, _, _ => by simp [insEdges]
  | (n, c) :: rest, db, habs, hnd => by
    have hk : hasEdgeKey db h n = false := habs (n, c) (List.mem_cons_self _ _)
    have hstep : childrenOf (insEdge db h n c) h = childrenOf db h ++ [(n, c)] := by
      unfold insEdge
      rw [if_neg (by simp [hk])]
      unfold childrenOf
      simp only [List.filterMap_append]
      congr 1
      simp
    rw [insEdges_cons]
    simp only [List.map_cons, List.nodup_cons] at hnd
    rw [childrenOf_insEdges_fresh rest (insEdge db h n c) ?pre hnd.2, hstep]
    · simp
    case pre =>
      intro p hp
      unfold insEdge
      rw [if_neg (by simp [hk])]
      unfold hasEdgeKey
      simp only [List.any_append]
      rw [show db.contains.any (fun r => r.1 == h && r.2.1 == p.1) = false from
        habs p (List.mem_cons_of_mem _ hp)]
      simp only [Bool.false_or, List.any_cons, List.any_nil]
      have h3 : ¬p.1 = n := by
        intro hh
        exact hnd.1 (by rw [← hh]; exact List.mem_map_of_mem Prod.fst hp)
      have h4 : ¬n = p.1 := fun hh => h3 hh.symm
      simp [h3, h4]

theorem childrenOf_insEdges_other {h : Bytes} :
    ∀ (pairs : List (Bytes × Bytes)) (db : DB) (q : Bytes), q ≠ h →
      childrenOf (insEdges db h pairs) q = childrenOf db q
  | [], _, _, _ => rfl
  | (n, c) :: rest, db, q, hq => by
    rw [insEdges_cons, childrenOf_insEdges_other rest _ q hq, childrenOf_insEdge_other hq]

theorem hashChildren_eq_nil_iff (Hf : Bytes → Bytes) (cs : List (Bytes × FSTree)) :
    hashChildren Hf cs = [] ↔ cs = [] := by
  cases cs with
  | nil => simp [hashChildren]
  | cons q rest =>
    rcases q with ⟨n, c⟩
    simp [hashChildren]

theorem goodChildrenB_names_nodup :
    ∀ cs : List (Bytes × FSTree), goodChildrenB cs = true → (cs.map Prod.fst).Nodup
  | [] , _ => List.nodup_nil
  | (n, c) :: rest, h => by
    simp only [goodChildrenB, Bool.and_eq_true] at h
    simp only [List.map_cons, List.nodup_cons]
    refine ⟨?_, goodChildrenB_names_nodup rest h.2⟩
    intro hmem
    rcases List.mem_map.mp hmem with ⟨p, hp, hpn⟩
    have hno : rest.any (fun p => p.1 == n) = false := by simpa using h.1.1.2
    rw [List.any_eq_false] at hno
    have hcontra := hno p hp
    rw [hpn] at hcontra
    simp at hcontra

theorem hashChildren_names (Hf : Bytes → Bytes) (cs : List (Bytes × FSTree)) :
    (hashChildren Hf cs).map Prod.fst = cs.map Prod.fst := by
  rw [hashChildren_eq_map]
  simp

mutual
/-- `StoredT` is preserved by any database step that keeps existing lookups
and keeps the exact child rows of every stored directory. -/
theorem storedT_pres (Hf : Bytes → Bytes) (t0 : FSTree) {db db' : DB}
    (hn : ∀ k v, lookupNode db k = some v → lookupNode db' k = some v)
    (hc : ∀ k v, lookupContent db k = some v → lookupContent db' k = some v)
    (he : ∀ cs2, FSTree.dir cs2 ∈ subtreesList t0 →
      childrenOf db (hashOf Hf (.dir cs2)) = hashChildren Hf cs2 →
      childrenOf db' (hashOf Hf (.dir cs2)) = hashChildren Hf cs2) :
    ∀ v, v ∈ subtreesList t0 → StoredT Hf db v → StoredT Hf db' v
  | .file d, _, hst => by
    simp only [StoredT] at hst ⊢
    exact ⟨hn _ _ hst.1, hc _ _ hst.2⟩
  | .dir cs, hv, hst => by
    simp only [StoredT] at hst ⊢
    exact ⟨hn _ _ hst.1, he cs hv hst.2.1,
      storedAll_pres Hf t0 hn hc he cs (child_mem_of_dir_mem hv) hst.2.2⟩

theorem storedAll_pres (Hf : Bytes → Bytes) (t0 : FSTree) {db db' : DB}
    (hn : ∀ k v, lookupNode db k = some v → lookupNode db' k = some v)
    (hc : ∀ k v, lookupContent db k = some v → lookupContent db' k = some v)
    (he : ∀ cs2, FSTree.dir cs2 ∈ subtreesList t0 →
      childrenOf db (hashOf Hf (.dir cs2)) = hashChildren Hf cs2 →
      childrenOf db' (hashOf Hf (.dir cs2)) = hashChildren Hf cs2) :
    ∀ cs, (∀ p ∈ cs, p.2 ∈ subtreesList t0) → StoredAll Hf db cs → StoredAll Hf db' cs
  | [], _, _ => trivial
  | (n, c) :: rest, hmem, hst => by
    simp only [StoredAll] at hst ⊢
    exact ⟨storedT_pres Hf t0 hn hc he c (hmem (n, c) (List.mem_cons_self _ _)) hst.1,
      storedAll_pres Hf t0 hn hc he rest
        (fun p hp => hmem p (List.mem_cons_of_mem _ hp)) hst.2⟩
end

theorem hasNodeKey_insContent (db : DB) (k d k2 : Bytes) :
    hasNodeKey (insContent db k d) k2 = hasNodeKey db k2 := by
  unfold hasNodeKey
  rw [nodes_insContent]

theorem lookupNode_of_hasNodeKey {db : DB} {k : Bytes} (h : hasNodeKey db k = true) :
    ∃ v, lookupNode db k = some v := by
  unfold hasNodeKey at h
  rw [List.any_eq_true] at h
  rcases h with ⟨r, hr, hrk⟩
  unfold lookupNode
  cases hf : db.nodes.find? (fun r => r.1 == k) with
  | none =>
    rw [List.find?_eq_none] at hf
    exact absurd hrk (hf r hr)
  | some r2 => exact ⟨r2.2, rfl⟩

theorem lookupContent_of_hasContentKey {db : DB} {k : Bytes} (h : hasContentKey db k = true) :
    ∃ v, lookupContent db k = some v := by
  unfold hasContentKey at h
  rw [List.any_eq_true] at h
  rcases h with ⟨r, hr, hrk⟩
  unfold lookupContent
  cases hf : db.contents.find? (fun r => r.1 == k) with
  | none =>
    rw [List.find?_eq_none] at hf
    exact absurd hrk (hf r hr)
  | some r2 => exact ⟨r2.2, rfl⟩

theorem hashOf_file (Hf : Bytes → Bytes) (d : Bytes) : hashOf Hf (.file d) = Hf d := by
  simp [hashOf]

theorem hashOf_dir (Hf : Bytes → Bytes) (cs : List (Bytes × FSTree)) :
    hashOf Hf (.dir cs) = Hf (encodeDir (sortPairs (hashChildren Hf cs))) := by
  simp [hashOf]

/-- effect of storing one file on a faithful database. -/
theorem store_file_step (Hf : Bytes → Bytes) (t0 : FSTree)
    (hF : ∀ u ∈ subtreesList t0, ∀ v ∈ subtreesList t0, hashOf Hf u = hashOf Hf v → u = v)
    {db : DB} {d : Bytes}
    (hu : FSTree.file d ∈ subtreesList t0) (hInv : InvDB Hf t0 db) :
    InvDB Hf t0 (insNode (insContent db (Hf d) d) (Hf d) true) ∧
    StoredT Hf (insNode (insContent db (Hf d) d) (Hf d) true) (.file d) ∧
    (∀ v ∈ subtreesList t0, StoredT Hf db v →
      StoredT Hf (insNode (insContent db (Hf d) d) (Hf d) true) v) := by
  have hcontent : lookupContent (insNode (insContent db (Hf d) d) (Hf d) true) (Hf d)
      = some d := by
    rw [lookupContent_insNode]
    cases hk : hasContentKey db (Hf d) with
    | false => exact lookupContent_insContent_new d hk
    | true =>
      obtain ⟨v, hv⟩ := lookupContent_of_hasContentKey hk
      obtain ⟨r, hrmem, hr1, hr2⟩ := lookupContent_justify hv
      obtain ⟨d2, hd2mem, hd2k, hd2v⟩ := hInv.2.1 r hrmem
      have heq : FSTree.file d2 = FSTree.file d := by
        apply hF _ hd2mem _ hu
        rw [hashOf_file, hashOf_file, ← hd2k, hr1]
      have hd2d : d2 = d := by injection heq
      rw [insContent_noop d hk, hv, hr2.symm, hd2v, hd2d]
  have hnode : lookupNode (insNode (insContent db (Hf d) d) (Hf d) true) (Hf d)
      = some true := by
    cases hk : hasNodeKey (insContent db (Hf d) d) (Hf d) with
    | false => exact lookupNode_insNode_new true hk
    | true =>
      rw [insNode_noop true hk]
      rw [hasNodeKey_insContent] at hk
      obtain ⟨v, hv⟩ := lookupNode_of_hasNodeKey hk
      obtain ⟨r, hrmem, hr1, hr2⟩ := lookupNode_justify hv
      obtain ⟨u2, hu2mem, hu2k, hu2v⟩ := hInv.1 r hrmem
      have heq : u2 = FSTree.file d := by
        apply hF _ hu2mem _ hu
        rw [hashOf_file, ← hu2k, hr1]
      rw [lookupNode_insContent, hv, hr2.symm, hu2v, heq]
      rfl
  refine ⟨?_, ?_, ?_⟩
  · refine ⟨?_, ?_, ?_⟩
    · intro r hr
      unfold insNode at hr
      split at hr
      · rw [nodes_insContent] at hr
        exact hInv.1 r hr
      · simp only [nodes_insContent] at hr
        rcases List.mem_append.mp hr with h | h
        · exact hInv.1 r h
        · rcases List.mem_singleton.mp h with rfl
          exact ⟨.file d, hu, by rw [hashOf_file], rfl⟩
    · intro r hr
      rw [contents_insNode] at hr
      unfold insContent at hr
      split at hr
      · exact hInv.2.1 r hr
      · rcases List.mem_append.mp hr with h | h
        · exact hInv.2.1 r h
        · rcases List.mem_singleton.mp h with rfl
          exact ⟨d, hu, rfl, rfl⟩
    · intro h hh
      rw [childrenOf_insNode, childrenOf_insContent] at hh ⊢
      exact hInv.2.2 h hh
  · exact ⟨hnode, hcontent⟩
  · apply storedT_pres Hf t0
    · intro k v hv
      exact lookupNode_insNode_pres (by rw [lookupNode_insContent]; exact hv) _ _
    · intro k v hv
      rw [lookupContent_insNode]
      exact lookupContent_insContent_pres hv _ _
    · intro cs2 _ hch
      rw [childrenOf_insNode, childrenOf_insContent]
      exact hch

theorem storedAll_of_pres (Hf : Bytes → Bytes) {t0 : FSTree} {db db' : DB}
    (hpres : ∀ v ∈ subtreesList t0, StoredT Hf db v → StoredT Hf db' v) :
    ∀ cs, (∀ p ∈ cs, p.2 ∈ subtreesList t0) → StoredAll Hf db cs → StoredAll Hf db' cs
  | [], _, _ => trivial
  | (n, c) :: rest, hmem, hst => by
    simp only [StoredAll] at hst ⊢
    exact ⟨hpres c (hmem (n, c) (List.mem_cons_self _ _)) hst.1,
      storedAll_of_pres Hf hpres rest (fun p hp => hmem p (List.mem_cons_of_mem _ hp)) hst.2⟩

/-- effect of the edge-insertion loop when storing a directory whose children
are already stored, on a faithful database. -/
theorem insEdges_dir_step (Hf : Bytes → Bytes) (t0 : FSTree)
    (hF : ∀ u ∈ subtreesList t0, ∀ v ∈ subtreesList t0, hashOf Hf u = hashOf Hf v → u = v)
    {db1 : DB} {cs : List (Bytes × FSTree)}
    (hu : FSTree.dir cs ∈ subtreesList t0)
    (hgood : goodChildrenB cs = true) (hInv1 : InvDB Hf t0 db1) :
    childrenOf (insEdges db1 (hashOf Hf (.dir cs)) (hashChildren Hf cs))
        (hashOf Hf (.dir cs)) = hashChildren Hf cs ∧
    InvDB Hf t0 (insEdges db1 (hashOf Hf (.dir cs)) (hashChildren Hf cs)) ∧
    (∀ v ∈ subtreesList t0, StoredT Hf db1 v →
      StoredT Hf (insEdges db1 (hashOf Hf (.dir cs)) (hashChildren Hf cs)) v) := by
  by_cases hch0 : childrenOf db1 (hashOf Hf (.dir cs)) = []
  · have hnodup : ((hashChildren Hf cs).map Prod.fst).Nodup := by
      rw [hashChildren_names]
      exact goodChildrenB_names_nodup cs hgood
    have habs : ∀ p ∈ hashChildren Hf cs,
        hasEdgeKey db1 (hashOf Hf (.dir cs)) p.1 = false := by
      intro p hp
      cases hk : hasEdgeKey db1 (hashOf Hf (.dir cs)) p.1 with
      | false => rfl
      | true =>
        obtain ⟨c, hc⟩ := mem_childrenOf_of_hasEdgeKey hk
        rw [hch0] at hc
        cases hc
    have hexact : childrenOf (insEdges db1 (hashOf Hf (.dir cs)) (hashChildren Hf cs))
        (hashOf Hf (.dir cs)) = hashChildren Hf cs := by
      rw [childrenOf_insEdges_fresh _ db1 habs hnodup, hch0]
      simp
    have he : ∀ cs2, FSTree.dir cs2 ∈ subtreesList t0 →
        childrenOf db1 (hashOf Hf (.dir cs2)) = hashChildren Hf cs2 →
        childrenOf (insEdges db1 (hashOf Hf (.dir cs)) (hashChildren Hf cs))
          (hashOf Hf (.dir cs2)) = hashChildren Hf cs2 := by
      intro cs2 hmem hch
      by_cases hq : hashOf Hf (.dir cs2) = hashOf Hf (.dir cs)
      · have h0 : hashChildren Hf cs2 = [] := by rw [← hch, hq, hch0]
        have hcs2 : cs2 = [] := (hashChildren_eq_nil_iff Hf cs2).mp h0
        subst hcs2
        have hcseq : FSTree.dir [] = FSTree.dir cs := hF _ hmem _ hu hq
        have hcs : cs = [] := by
          injection hcseq with h2
          exact h2.symm
        subst hcs
        simp only [hashChildren, insEdges, List.foldl_nil]
        exact hch
      · rw [childrenOf_insEdges_other _ _ _ hq]
        exact hch
    refine ⟨hexact, ⟨?_, ?_, ?_⟩, ?_⟩
    · intro r hr
      rw [nodes_insEdges] at hr
      exact hInv1.1 r hr
    · intro r hr
      rw [contents_insEdges] at hr
      exact hInv1.2.1 r hr
    · intro h2 hne
      by_cases hq : h2 = hashOf Hf (.dir cs)
      · subst hq
        exact ⟨cs, hu, rfl, hexact⟩
      · rw [childrenOf_insEdges_other _ _ _ hq] at hne ⊢
        exact hInv1.2.2 h2 hne
    · apply storedT_pres Hf t0
      · intro k v hv
        rw [lookupNode_insEdges]
        exact hv
      · intro k v hv
        rw [lookupContent_insEdges]
        exact hv
      · exact he
  · obtain ⟨cs2, hmem2, hkey2, hrows2⟩ := hInv1.2.2 _ hch0
    have heq : FSTree.dir cs2 = FSTree.dir cs := by
      apply hF _ hmem2 _ hu
      rw [← hkey2]
    have hcs2 : cs2 = cs := by injection heq
    rw [hcs2] at hrows2
    have hnoop : insEdges db1 (hashOf Hf (.dir cs)) (hashChildren Hf cs) = db1 := by
      apply insEdges_noop
      intro p hp
      have hmemc : (p.1, p.2) ∈ childrenOf db1 (hashOf Hf (.dir cs)) := by
        rw [hrows2]
        simpa using hp
      exact hasEdgeKey_of_mem_childrenOf hmemc
    rw [hnoop]
    exact ⟨hrows2, hInv1, fun v _ hst => hst⟩

/-- effect of storing a directory (edges then node row) once its children
are stored, on a faithful database. -/
theorem store_dir_step (Hf : Bytes → Bytes) (t0 : FSTree)
    (hF : ∀ u ∈ subtreesList t0, ∀ v ∈ subtreesList t0, hashOf Hf u = hashOf Hf v → u = v)
    {db1 : DB} {cs : List (Bytes × FSTree)}
    (hu : FSTree.dir cs ∈ subtreesList t0)
    (hgood : goodChildrenB cs = true) (hInv1 : InvDB Hf t0 db1)
    (hAll1 : StoredAll Hf db1 cs) :
    InvDB Hf t0 (insNode (insEdges db1 (hashOf Hf (.dir cs)) (hashChildren Hf cs))
      (hashOf Hf (.dir cs)) false) ∧
    StoredT Hf (insNode (insEdges db1 (hashOf Hf (.dir cs)) (hashChildren Hf cs))
      (hashOf Hf (.dir cs)) false) (.dir cs) ∧
    (∀ v ∈ subtreesList t0, StoredT Hf db1 v →
      StoredT Hf (insNode (insEdges db1 (hashOf Hf (.dir cs)) (hashChildren Hf cs))
        (hashOf Hf (.dir cs)) false) v) := by
  obtain ⟨hexact, hInv2, hPres2⟩ := insEdges_dir_step Hf t0 hF hu hgood hInv1
  have hAll2 : StoredAll Hf (insEdges db1 (hashOf Hf (.dir cs)) (hashChildren Hf cs)) cs :=
    storedAll_of_pres Hf hPres2 cs (child_mem_of_dir_mem hu) hAll1
  have hnode3 : lookupNode (insNode (insEdges db1 (hashOf Hf (.dir cs))
      (hashChildren Hf cs)) (hashOf Hf (.dir cs)) false) (hashOf Hf (.dir cs))
      = some false := by
    cases hk : hasNodeKey (insEdges db1 (hashOf Hf (.dir cs)) (hashChildren Hf cs))
        (hashOf Hf (.dir cs)) with
    | false => exact lookupNode_insNode_new false hk
    | true =>
      rw [insNode_noop false hk]
      obtain ⟨v, hv⟩ := lookupNode_of_hasNodeKey hk
      obtain ⟨r, hrmem, hr1, hr2⟩ := lookupNode_justify hv
      obtain ⟨u2, hu2mem, hu2k, hu2v⟩ := hInv2.1 r hrmem
      have heq : u2 = FSTree.dir cs := by
        apply hF _ hu2mem _ hu
        rw [← hu2k, hr1]
      rw [hv, hr2.symm, hu2v, heq]
      rfl
  have hPres3 : ∀ v ∈ subtreesList t0,
      StoredT Hf (insEdges db1 (hashOf Hf (.dir cs)) (hashChildren Hf cs)) v →
      StoredT Hf (insNode (insEdges db1 (hashOf Hf (.dir cs)) (hashChildren Hf cs))
        (hashOf Hf (.dir cs)) false) v := by
    apply storedT_pres Hf t0
    · intro k v hv
      exact lookupNode_insNode_pres hv _ _
    · intro k v hv
      rw [lookupContent_insNode]
      exact hv
    · intro cs2 _ hch
      rw [childrenOf_insNode]
      exact hch
  refine ⟨⟨?_, ?_, ?_⟩, ?_, ?_⟩
  · intro r hr
    unfold insNode at hr
    split at hr
    · exact hInv2.1 r hr
    · rcases List.mem_append.mp hr with h | h
      · exact hInv2.1 r h
      · rcases List.mem_singleton.mp h with rfl
        exact ⟨.dir cs, hu, rfl, rfl⟩
  · intro r hr
    rw [contents_insNode] at hr
    exact hInv2.2.1 r hr
  · intro h2 hne
    rw [childrenOf_insNode] at hne ⊢
    exact hInv2.2.2 h2 hne
  · refine ⟨hnode3, ?_, ?_⟩
    · rw [childrenOf_insNode]
      exact hexact
    · exact storedAll_of_pres Hf hPres3 cs (child_mem_of_dir_mem hu) hAll2
  · intro v hv hst
    exact hPres3 v hv (hPres2 v hv hst)

mutual
/-- a faithful store run: rows stay justified, the stored tree ends exactly
represented, and previously represented trees stay represented. -/
theorem store_faithful (Hf : Bytes → Bytes) (t0 : FSTree)
    (hF : ∀ u ∈ subtreesList t0, ∀ v ∈ subtreesList t0, hashOf Hf u = hashOf Hf v → u = v)
    (hG : goodTreeB t0 = true) :
    ∀ u db, u ∈ subtreesList t0 → InvDB Hf t0 db →
      InvDB Hf t0 (store_rec Hf db u).2 ∧ StoredT Hf (store_rec Hf db u).2 u ∧
      (∀ v ∈ subtreesList t0, StoredT Hf db v → StoredT Hf (store_rec Hf db u).2 v)
  | .file d, db, hu, hInv => by
    simp only [store_rec]
    exact store_file_step Hf t0 hF hu hInv
  | .dir cs, db, hu, hInv => by
    have hch := storeChildren_faithful Hf t0 hF hG cs db (child_mem_of_dir_mem hu) hInv
    have hfst := storeChildren_fst Hf db cs
    simp only [store_rec]
    cases hsc : storeChildren Hf db cs with
    | mk tmp db1 =>
      rw [hsc] at hch hfst
      simp only at hfst
      subst hfst
      obtain ⟨hInv1, hAll1, hPres1⟩ := hch
      have hgood : goodChildrenB cs = true := by
        have := goodTreeB_mem t0 hG (.dir cs) hu
        simpa [goodTreeB] using this
      have hstep := store_dir_step Hf t0 hF hu hgood hInv1 hAll1
      rw [← hashOf_dir Hf cs]
      exact ⟨hstep.1, hstep.2.1, fun v hv hst => hstep.2.2 v hv (hPres1 v hv hst)⟩

theorem storeChildren_faithful (Hf : Bytes → Bytes) (t0 : FSTree)
    (hF : ∀ u ∈ subtreesList t0, ∀ v ∈ subtreesList t0, hashOf Hf u = hashOf Hf v → u = v)
    (hG : goodTreeB t0 = true) :
    ∀ cs db, (∀ p ∈ cs, p.2 ∈ subtreesList t0) → InvDB Hf t0 db →
      InvDB Hf t0 (storeChildren Hf db cs).2 ∧
      StoredAll Hf (storeChildren Hf db cs).2 cs ∧
      (∀ v ∈ subtreesList t0, StoredT Hf db v → StoredT Hf (storeChildren Hf db cs).2 v)
  | [], db, _, hInv => by
    simp only [storeChildren]
    exact ⟨hInv, trivial, fun v _ h => h⟩
  | (n, c) :: rest, db, hmem, hInv => by
    have h1 := store_faithful Hf t0 hF hG c db (hmem (n, c) (List.mem_cons_self _ _)) hInv
    simp only [storeChildren]
    cases hs : store_rec Hf db c with
    | mk hc1 db1 =>
      rw [hs] at h1
      obtain ⟨hInv1, hSt1, hPres1⟩ := h1
      have h2 := storeChildren_faithful Hf t0 hF hG rest db1
        (fun p hp => hmem p (List.mem_cons_of_mem _ hp)) hInv1
      cases hs2 : storeChildren Hf db1 rest with
      | mk ps db2 =>
        rw [hs2] at h2
        obtain ⟨hInv2, hAll2, hPres2⟩ := h2
        refine ⟨hInv2, ?_, fun v hv hst => hPres2 v hv (hPres1 v hv hst)⟩
        simp only [StoredAll]
        exact ⟨hPres2 c (hmem (n, c) (List.mem_cons_self _ _)) hSt1, hAll2⟩
end

/-- a tree all of whose rows are exactly stored materializes back to itself. -/
theorem materialize_of_stored (Hf : Bytes → Bytes) :
    ∀ fuel (db : DB) (u : FSTree), StoredT Hf db u → depthOf u ≤ fuel →
      materialize db fuel (hashOf Hf u) = some u := by
  intro fuel
  induction fuel with
  | zero =>
    intro db u hst hd
    cases u <;> simp [depthOf] at hd
  | succ fuel ih =>
    intro db u hst hd
    cases u with
    | file d =>
      simp only [StoredT] at hst
      rw [hashOf_file]
      simp [materialize, hst.1, hst.2]
    | dir cs =>
      simp only [StoredT] at hst
      obtain ⟨hn, hch, hall⟩ := hst
      simp only [materialize, hn, hch]
      have hdep : depthChildren cs ≤ fuel := by
        simp only [depthOf] at hd
        omega
      have inner : ∀ cs2, StoredAll Hf db cs2 → depthChildren cs2 ≤ fuel →
          matChildren (materialize db fuel) (hashChildren Hf cs2) = some cs2 := by
        intro cs2
        induction cs2 with
        | nil => intro _ _; rfl
        | cons q rest ih2 =>
          rcases q with ⟨n, c⟩
          intro hall2 hdep2
          simp only [StoredAll] at hall2
          simp only [depthChildren] at hdep2
          simp only [hashChildren, matChildren]
          rw [ih db c hall2.1 (by omega)]
          rw [ih2 hall2.2 (by omega)]
      rw [inner cs hall hdep]
      rfl

/-! ### C9: find lemmas -/

theorem splitOnByte_append_one (s : Bytes) :
    splitOnByte 47 (s ++ [47]) = splitOnByte 47 s ++ [[]] := by
  have h : s ++ [47] = s ++ 47 :: [] := rfl
  rw [h, splitOnByte_append]
  rfl

theorem splitOnByte_head {c : Nat} (hc : ¬c = 47) (rest : Bytes) :
    ∃ p ps, splitOnByte 47 (c :: rest) = (c :: p) :: ps := by
  simp only [splitOnByte, if_neg hc]
  cases hr : splitOnByte 47 rest with
  | nil => exact absurd hr (splitOnByte_ne_nil _ _)
  | cons p ps => exact ⟨p, ps, rfl⟩

theorem splitOnByte_getLast_ne :
    ∀ s : Bytes, s ≠ [] → s.getLast? ≠ some 47 → (splitOnByte 47 s).getLast? ≠ some []
  | [], h, _ => absurd rfl h
  | c :: rest, _, hlast => by
    by_cases hrest : rest = []
    · subst hrest
      have hc : ¬c = 47 := by
        intro hh
        exact hlast (by rw [hh]; rfl)
      simp only [splitOnByte, if_neg hc]
      simp [splitOnByte]
    · have hlast2 : rest.getLast? ≠ some 47 := by
        cases rest with
        | nil => exact absurd rfl hrest
        | cons r0 rest2 =>
          rw [List.getLast?_cons_cons] at hlast
          exact hlast
      have ih := splitOnByte_getLast_ne rest hrest hlast2
      simp only [splitOnByte]
      split
      · cases hr : splitOnByte 47 rest with
        | nil => exact absurd hr (splitOnByte_ne_nil _ _)
        | cons q qs =>
          rw [hr] at ih
          rw [List.getLast?_cons_cons]
          exact ih
      · cases hr : splitOnByte 47 rest with
        | nil => exact absurd hr (splitOnByte_ne_nil _ _)
        | cons q qs =>
          rw [hr] at ih
          cases qs with
          | nil => simp
          | cons q2 qs2 =>
            rw [List.getLast?_cons_cons] at ih ⊢
            exact ih

/-- on a path with no leading or trailing slash, `find` resolves exactly the
raw split components. -/
theorem find_no_trim (db : DB) (r : Bytes) :
    ∀ s : Bytes, s ≠ [] → s.head? ≠ some 47 → s.getLast? ≠ some 47 →
      find db r (some s) = .ok (findPath db r (splitOnByte 47 s))
  | [], h, _, _ => absurd rfl h
  | c :: rest, _, hhead, hlast => by
    have hc : ¬c = 47 := by
      intro hh
      exact hhead (by rw [hh]; rfl)
    obtain ⟨p, ps, hsplit⟩ := splitOnByte_head hc rest
    have hgl := splitOnByte_getLast_ne (c :: rest) (by simp) hlast
    simp only [find, hsplit]
    rw [if_neg]
    intro hand
    rw [hsplit] at hgl
    exact hgl hand.2

theorem find_trimmed (db : DB) (r : Bytes) (s : Bytes) :
    find db r (some (47 :: s ++ [47])) = .ok (findPath db r (splitOnByte 47 s)) := by
  have hsplit : splitOnByte 47 (47 :: s ++ [47]) = [] :: (splitOnByte 47 s ++ [[]]) := by
    rw [show ((47 : Nat) :: s ++ [47]) = 47 :: (s ++ [47]) from rfl]
    rw [splitOnByte_sep_cons, splitOnByte_append_one]
  simp only [find, hsplit]
  rw [if_pos ⟨by simp, by rw [List.getLast?_concat]⟩]
  rw [List.dropLast_concat]

/-! ### Concrete fixtures for the claims -/

/-- old tree of the type-mismatch scenario: a single file `a` (= byte 97). -/
def exTreeOldC1 : FSTree := .dir [([97], .file [1])]

/-- new tree of the type-mismatch scenario: directory `a` containing file `b`. -/
def exTreeNewC1 : FSTree := .dir [([97], .dir [([98], .file [2])])]

def exDbC1 : DB := (store_rec id (store_rec id emptyDB exTreeOldC1).2 exTreeNewC1).2

def exHashOldC1 : Bytes := (store_rec id emptyDB exTreeOldC1).1

def exHashNewC1 : Bytes := (store_rec id emptyDB exTreeNewC1).1

/-- stored old tree for C2: one file `z` (= byte 122). -/
def exTreeOldC2 : FSTree := .dir [([122], .file [1])]

def exDbC2 : DB := (store_rec id emptyDB exTreeOldC2).2

def exHashOldC2 : Bytes := (store_rec id emptyDB exTreeOldC2).1

def exDbEmptyC2 : DB := (store_rec id emptyDB (.dir [])).2

def exHashEmptyC2 : Bytes := (store_rec id emptyDB (.dir [])).1

def exDbFileC4 : DB := (store_rec id emptyDB (.file [1])).2

/-- a two-level directory for the C4 witness. -/
def exTreeC4 : FSTree := .dir [([97], .file [5]), ([98], .dir [([99], .file [6])])]

def exDbC4 : DB := (store_rec id emptyDB exTreeC4).2

def exHashC4 : Bytes := (store_rec id emptyDB exTreeC4).1

/-- directory with one child whose name embeds a newline and a forged
encoding line (`"a\n00 b"` as bytes). -/
def exDir1C6 : FSTree := .dir [([97, 10, 48, 48, 32, 98], .file [0])]

/-- directory with two children `a`, `b`, both the empty file: its canonical
encoding is byte-identical to `exDir1C6`'s. -/
def exDir2C6 : FSTree := .dir [([97], .file [0]), ([98], .file [0])]

def exTreeC6 : FSTree := .dir [([100], exDir1C6), ([101], exDir2C6)]

def exDbC6 : DB := (store_rec id emptyDB exTreeC6).2

def exHashC6 : Bytes := (store_rec id emptyDB exTreeC6).1

/-! ### The claims -/

/-- C1: with the old tree holding file `a` and the new tree holding directory
`a/b`, the in-store diff contains exactly a removal entry at `"a"` (old
content present, new absent) and an addition entry at `"a/b"` (new present,
old absent); and for every pair of compared stored trees, every entry of the
result carries content from at least one side — an entry for a path that is
a directory on both sides (both contents absent) never occurs, so only file
paths appear as keys. -/
theorem merkle_c1 :
    (diff exDbC1 9 exHashOldC1 exHashNewC1 =
      .ok [([97], ⟨some [1], none⟩), ([97, 47, 98], ⟨none, some [2]⟩)]) ∧
    (∀ (db : DB) (fuel : Nat) (a b : Bytes) (m : DMap), diff db fuel a b = .ok m →
      ∀ e ∈ m, e.2.old_data.isSome = true ∨ e.2.new_data.isSome = true) :=
  ⟨by decide, fun _ fuel a b m h e he => diff_rec_good fuel a b [] m h e he⟩

theorem merkle_c1_witness :
    (([97], (⟨some [1], none⟩ : Diff)) : Bytes × Diff).2.old_data.isSome = true ∨
    (([97], (⟨some [1], none⟩ : Diff)) : Bytes × Diff).2.new_data.isSome = true :=
  merkle_c1.2 exDbC1 9 exHashOldC1 exHashNewC1
    [([97], ⟨some [1], none⟩), ([97, 47, 98], ⟨none, some [2]⟩)] (by decide)
    ([97], ⟨some [1], none⟩) (by decide)

/-- C2 (code bug): `diff_path` drops removals and mis-keys nested additions.
First conjunct: the stored tree holds file `z` and the live tree is empty,
yet `diff_path` returns the empty dict — the fully-removed entry for `z`
required by the claim is missing, because `diff_path_rec` only iterates the
live side's children. Second conjunct: against a stored empty directory, a
live tree `d/g` produces an entry keyed `"d/d"` instead of `"d/g"`, because
`build_from_path` extends the path with the parent's own name (`f.name`)
instead of the child's. -/
theorem merkle_c2_bug :
    diff_path exDbC2 9 exHashOldC2 (.dir []) = .ok [] ∧
    diff_path exDbEmptyC2 9 exHashEmptyC2 (.dir [([100], .dir [([103], .file [2])])]) =
      .ok [([100, 47, 100], ⟨none, some [2]⟩)] :=
  ⟨by decide, by decide⟩

/-- C3: for any target path at which some filesystem entry already exists,
`fetch` returns `false` and leaves the filesystem (in particular the
pre-existing entry) unmodified; and a missing hash likewise yields `false`
with no filesystem change. In the model `fetch` is a total function, so
every underlying failure is converted into the `false` return value rather
than an exception. -/
theorem merkle_c3 :
    (∀ (db : DB) (fuel : Nat) (fs : FS) (hash p : Bytes), existsAt fs p = true →
      fetch db fuel fs hash p = (false, fs)) ∧
    (∀ (db : DB) (fuel : Nat) (fs : FS) (hash p : Bytes), lookupNode db hash = none →
      fetch db fuel fs hash p = (false, fs)) :=
  ⟨fetch_false_of_exists, fetch_false_of_missing⟩

theorem merkle_c3_witness :
    fetch exDbC1 5 [([116], .file [7])] exHashOldC1 [116] = (false, [([116], .file [7])]) :=
  merkle_c3.1 exDbC1 5 [([116], .file [7])] exHashOldC1 [116] (by decide)

/-- C4 counterexample: `[1]` is stored as a file node, nothing exists at the
target `"t"`, yet `fetch` returns `false` and creates nothing — the claim
asserts it creates a regular file with the stored bytes and returns `true`.
The implementation appends a slash to every target (`path += '/'`) and then
opens `"t/"` for writing, which fails. -/
theorem merkle_c4_counterexample :
    lookupNode exDbFileC4 [1] = some true ∧ existsAt [] [116] = false ∧
    fetch exDbFileC4 5 [] [1] [116] = (false, []) :=
  ⟨by decide, by decide, by decide⟩

/-- C4 (amended): for a hash denoting a directory node, `fetch` creates the
directory at the fresh target and recursively materializes each child at
`target/child_name` — the resulting filesystem is exactly the insertion of
the materialized tree at the target — and returns `true`; but for a hash
stored as a file node `fetch` always returns `false` (the implementation
appends a trailing slash to the target, so opening it as a file fails),
leaving the filesystem unchanged. -/
theorem merkle_c4 :
    (∀ (db : DB) (fuel : Nat) (fs : FS) (h p : Bytes) (t : FSTree) (r : FS),
      materialize db fuel h = some t → t.isFileB = false → goodTreeB t = true →
      insTree fs (comps p) t = some r →
      fetch db fuel fs h p = (true, r)) ∧
    (∀ (db : DB) (fuel : Nat) (fs : FS) (h p : Bytes),
      lookupNode db h = some true → fetch db fuel fs h p = (false, fs)) :=
  ⟨fun db fuel fs h p t r hm hd hg hi => fetch_ins db fuel fs h p t r hm hd hg hi,
   fun db fuel fs h p hn => fetch_file_false db fuel fs h p hn⟩

theorem merkle_c4_witness :
    fetch exDbC4 9 [] exHashC4 [116] = (true, [([116], exTreeC4)]) :=
  merkle_c4.1 exDbC4 9 [] exHashC4 [116] exTreeC4 [([116], exTreeC4)]
    (by decide) (by decide) (by decide) (by decide)

/-- C5: the hash of a stored file is the digest of its raw content bytes;
the hash of a stored directory is the digest of the canonical encoding
(lines `<hex child hash><space><name>\n`, sorted); and the hash returned by
`store_rec` depends only on each file's bytes and each directory's set of
(name, hash) pairs — storing a reordered (recursively permuted) tree into
any database yields an identical root hash. -/
theorem merkle_c5 :
    (∀ (Hf : Bytes → Bytes) (db : DB) (d : Bytes), (store_rec Hf db (.file d)).1 = Hf d) ∧
    (∀ (Hf : Bytes → Bytes) (db : DB) (cs : List (Bytes × FSTree)),
      (store_rec Hf db (.dir cs)).1 = Hf (encodeDir (sortPairs (hashChildren Hf cs)))) ∧
    (∀ (Hf : Bytes → Bytes) (db db2 : DB) (t t2 : FSTree), TreeEquiv t t2 →
      (store_rec Hf db t).1 = (store_rec Hf db2 t2).1) := by
  refine ⟨?_, ?_, ?_⟩
  · intro Hf db d
    rw [store_rec_fst, hashOf_file]
  · intro Hf db cs
    rw [store_rec_fst, hashOf_dir]
  · intro Hf db db2 t t2 he
    rw [store_rec_fst, store_rec_fst]
    exact treeEquiv_hashOf Hf (tsize t) t t2 le_rfl he

theorem merkle_c5_witness :
    (store_rec id emptyDB (.dir [([97], .file [1]), ([98], .file [2])])).1 =
      (store_rec id emptyDB (.dir [([98], .file [2]), ([97], .file [1])])).1 :=
  merkle_c5.2.2 id emptyDB emptyDB _ _
    (TreeEquiv.dir
      (List.Perm.swap (([98], FSTree.file [2]) : Bytes × FSTree) ([97], FSTree.file [1]) [])
      (ChildrenEquiv.cons (TreeEquiv.file [2])
        (ChildrenEquiv.cons (TreeEquiv.file [1]) ChildrenEquiv.nil)))

/-- C6 counterexample: two distinct directories whose canonical encodings
are byte-identical (a child name containing a newline forges the other
directory's encoding lines), so they receive the same hash under any digest
of the encoding — including real SHA-256, since the hashed inputs are equal
bytes, not a hash collision. Storing a tree containing both merges their
`contains` rows under the one hash; `fetch` then succeeds, but re-storing
the fetched tree yields a different root hash, refuting the round-trip
claim as stated. -/
theorem merkle_c6_counterexample :
    exDir1C6 ≠ exDir2C6 ∧ hashOf id exDir1C6 = hashOf id exDir2C6 ∧
    goodTreeB exTreeC6 = true ∧
    (fetch exDbC6 9 [] exHashC6 [116]).1 = true ∧
    (resolveNode (.dir (fetch exDbC6 9 [] exHashC6 [116]).2) (comps [116])).map
      (fun t => decide ((store_rec id emptyDB t).1 = exHashC6)) = some false :=
  ⟨by decide, by decide, by decide, by decide, by decide⟩

/-- C6 (amended): the round trip `h = store(P); fetch(h, Q); store(Q) = h`
holds provided distinct subtrees of `P` never share a hash (no encoding or
digest collision among `P`'s subtrees) and `P` is a well-formed directory
tree: after storing `P` into an empty store, any successful fetch of `h`
places a tree at the target that re-stores (into any database) to exactly
`h`. -/
theorem merkle_c6 :
    ∀ (Hf : Bytes → Bytes) (t : FSTree) (fuel : Nat) (fs : FS) (q : Bytes) (fs2 : FS),
      (∀ u ∈ subtreesList t, ∀ v ∈ subtreesList t, hashOf Hf u = hashOf Hf v → u = v) →
      goodTreeB t = true →
      depthOf t ≤ fuel →
      fetch (store_rec Hf emptyDB t).2 fuel fs (store_rec Hf emptyDB t).1 q = (true, fs2) →
      ∃ t2, resolveNode (.dir fs2) (comps q) = some t2 ∧
        ∀ db2 : DB, (store_rec Hf db2 t2).1 = (store_rec Hf emptyDB t).1 := by
  intro Hf t fuel fs q fs2 hF hG hdep hfetch
  have hsf := store_faithful Hf t hF hG t emptyDB (self_mem_subtreesList t) (invDB_empty Hf t)
  have hst : StoredT Hf (store_rec Hf emptyDB t).2 t := hsf.2.1
  have hfst : (store_rec Hf emptyDB t).1 = hashOf Hf t := store_rec_fst Hf emptyDB t
  have hmat : materialize (store_rec Hf emptyDB t).2 fuel (store_rec Hf emptyDB t).1
      = some t := by
    rw [hfst]
    exact materialize_of_stored Hf fuel _ t hst hdep
  cases ht : t with
  | file d =>
    rw [ht] at hst
    simp only [StoredT] at hst
    have hfalse := fetch_file_false (store_rec Hf emptyDB t).2 fuel fs
      (store_rec Hf emptyDB t).1 q (by rw [hfst, ht, hashOf_file]; exact hst.1)
    rw [hfalse] at hfetch
    cases hfetch
  | dir cs =>
    have hres := fetch_success_resolve _ fuel fs _ q fs2 t hfetch hmat
      (by rw [ht]; rfl) hG
    exact ⟨t, hres, fun db2 => by rw [store_rec_fst, store_rec_fst, ht]⟩

theorem merkle_c6_witness :
    ∃ t2, resolveNode (.dir [([116], FSTree.dir [([97], FSTree.file [1])])]) (comps [116])
        = some t2 ∧
      ∀ db2 : DB, (store_rec id db2 t2).1 =
        (store_rec id emptyDB (.dir [([97], .file [1])])).1 :=
  merkle_c6 id (.dir [([97], .file [1])]) 5 [] [116]
    [([116], .dir [([97], .file [1])])]
    (by decide) (by decide) (by decide) (by decide)

/-- C7: diffing a hash against itself yields the empty mapping, and at any
path inside the recursion two identical hashes contribute nothing — with a
single unit of fuel and against an arbitrary (even empty) database, so no
recursion and no store access takes place. -/
theorem merkle_c7 :
    (∀ (db : DB) (fuel : Nat) (h : Bytes), diff db (fuel + 1) h h = .ok []) ∧
    (∀ (db : DB) (fuel : Nat) (h p : Bytes), diff_rec db (fuel + 1) h h p = .ok []) :=
  ⟨fun db fuel h => diff_rec_self db fuel h [], diff_rec_self⟩

/-- C8: storing the same tree again returns the same hash and leaves every
table of the backing store exactly as the first call left it (every insert
finds its primary key present and is ignored); and storing never duplicates
a primary key in any table. -/
theorem merkle_c8 :
    (∀ (Hf : Bytes → Bytes) (db : DB) (t : FSTree),
      store_rec Hf (store_rec Hf db t).2 t = ((store_rec Hf db t).1, (store_rec Hf db t).2)) ∧
    (∀ (Hf : Bytes → Bytes) (db : DB) (t : FSTree), keysNodup db →
      keysNodup (store_rec Hf db t).2) := by
  constructor
  · intro Hf db t
    rw [store_rec_noop Hf _ t (store_rec_stores Hf db t), store_rec_fst]
  · intro Hf db t h
    exact store_rec_nodup Hf db t h

theorem merkle_c8_witness :
    keysNodup (store_rec id emptyDB (.dir [([97], .file [1])])).2 :=
  merkle_c8.2 id emptyDB (.dir [([97], .file [1])])
    ⟨List.nodup_nil, List.nodup_nil, List.nodup_nil⟩

/-- C9: `find` raises only for the null path sentinel; the empty string
resolves to the root hash itself; a non-null path never raises; one leading
and one trailing slash are ignored; and resolution walks one `contains`
lookup per component, returning `none` as soon as a component is missing. -/
theorem merkle_c9 :
    (∀ (db : DB) (r : Bytes), find db r none = .error ()) ∧
    (∀ (db : DB) (r : Bytes), find db r (some []) = .ok (some r)) ∧
    (∀ (db : DB) (r s : Bytes), ∃ v, find db r (some s) = .ok v) ∧
    (∀ (db : DB) (r s : Bytes), s ≠ [] → s.head? ≠ some 47 → s.getLast? ≠ some 47 →
      find db r (some (47 :: s ++ [47])) = find db r (some s)) ∧
    (∀ (db : DB) (root n : Bytes) (rest : List Bytes), childByName db root n = none →
      findPath db root (n :: rest) = none) ∧
    (∀ (db : DB) (root n h : Bytes) (rest : List Bytes), childByName db root n = some h →
      findPath db root (n :: rest) = findPath db h rest) := by
  refine ⟨fun db r => rfl, fun db r => rfl, fun db r s => ⟨_, rfl⟩, ?_, ?_, ?_⟩
  · intro db r s h1 h2 h3
    rw [find_trimmed, find_no_trim db r s h1 h2 h3]
  · intro db root n rest h
    simp [findPath, h]
  · intro db root n h rest hh
    simp [findPath, hh]

theorem merkle_c9_witness :
    find exDbC1 exHashOldC1 (some (47 :: [97] ++ [47]))
      = find exDbC1 exHashOldC1 (some [97]) ∧
    findPath exDbC1 exHashOldC1 [[99]] = none ∧
    findPath exDbC1 exHashOldC1 [[97]] = findPath exDbC1 [1] [] :=
  ⟨merkle_c9.2.2.2.1 exDbC1 exHashOldC1 [97] (by decide) (by decide) (by decide),
   merkle_c9.2.2.2.2.1 exDbC1 exHashOldC1 [99] [] (by decide),
   merkle_c9.2.2.2.2.2 exDbC1 exHashOldC1 [97] [1] [] (by decide)⟩

/-- C10: for distinct hashes, `diff` raises the invalid-hash error as soon
as either hash has no `nodes` row; but equal hashes short-circuit to the
empty mapping before any store access, so `diff(a, a)` succeeds even on an
empty store for a hash that was never stored. -/
theorem merkle_c10 :
    (∀ (db : DB) (fuel : Nat) (a b p : Bytes), a ≠ b →
      (lookupNode db a = none ∨ lookupNode db b = none) →
      diff_rec db (fuel + 1) a b p = .error .invalidHash) ∧
    (∀ (db : DB) (fuel : Nat) (a : Bytes), diff db (fuel + 1) a a = .ok []) :=
  ⟨fun db fuel a b p hne hml => diff_rec_invalid db fuel a b p hne hml,
   fun db fuel a => diff_rec_self db fuel a []⟩

theorem merkle_c10_witness :
    diff_rec emptyDB 1 [0] [1] [] = .error .invalidHash ∧
    diff emptyDB 1 [9] [9] = .ok [] :=
  ⟨merkle_c10.1 emptyDB 0 [0] [1] [] (by decide) (Or.inl (by decide)),
   merkle_c10.2 emptyDB 0 [9]⟩
